import Mathlib

/-!
Verification development for the registrar-pricelist repository.

The JavaScript/TypeScript sources are shallowly embedded: strings are
`String`/`List Char`, JS numbers are `ℚ` with `Option ℚ` standing for a
possibly-NaN result of `Number(...)` coercion (JS `Number` on strings is
modelled for the decimal-literal subset `-?digits[.digits]` over the
characters that can actually reach it), JS objects are association lists,
and thrown errors are `Except`.
-/

namespace Spec2Proof

/-! ## JS string primitives (on `List Char`) -/

/-- Code points stripped by JS `String.prototype.trim`
(ECMAScript WhiteSpace ∪ LineTerminator, including NBSP and the BOM). -/
def jsSpaceCodes : List ℕ :=
  [0x9, 0xa, 0xb, 0xc, 0xd, 0x20, 0xa0, 0x1680,
   0x2000, 0x2001, 0x2002, 0x2003, 0x2004, 0x2005, 0x2006, 0x2007,
   0x2008, 0x2009, 0x200a, 0x2028, 0x2029, 0x202f, 0x205f, 0x3000, 0xfeff]

def isJsSpace (c : Char) : Bool := jsSpaceCodes.contains c.toNat

/-- JS `.trim()`: drop leading and trailing whitespace. -/
def jsTrim (l : List Char) : List Char :=
  ((l.dropWhile isJsSpace).reverse.dropWhile isJsSpace).reverse

/-- ASCII lower-casing, as done by `.toLowerCase()` on the ASCII range
(non-ASCII letters are left unchanged; no claim involves them). -/
def lowerChar (c : Char) : Char :=
  if 'A' ≤ c ∧ c ≤ 'Z' then Char.ofNat (c.toNat + 32) else c

def jsToLower (l : List Char) : List Char := l.map lowerChar

/-- ASCII upper-casing for the ASCII range, as `.toUpperCase()`. -/
def upperChar (c : Char) : Char :=
  if 'a' ≤ c ∧ c ≤ 'z' then Char.ofNat (c.toNat - 32) else c

def jsToUpper (l : List Char) : List Char := l.map upperChar

def isDigitChar (c : Char) : Bool := '0' ≤ c && c ≤ '9'

/-- String-level helpers. -/
def trimS (s : String) : String := ⟨jsTrim s.data⟩

def lowerS (s : String) : String := ⟨jsToLower s.data⟩

def upperS (s : String) : String := ⟨jsToUpper s.data⟩

/-! ## JS `Number(...)` on cleaned decimal text

`jsNumber` models `Number(s)` for strings drawn from digits, `'.'` and
`'-'` (plus the empty string): an optional single leading minus, then
digits with at most one dot, at least one digit; the empty string is `0`.
`none` models `NaN`. -/

def digitsToNat (l : List Char) : ℕ :=
  l.foldl (fun a c => a * 10 + (c.toNat - 48)) 0

/-- Split at the first `'.'`: integer part and (optional) remainder. -/
def splitDot : List Char → List Char × Option (List Char)
  | [] => ([], none)
  | c :: r =>
    if c = '.' then ([], some r)
    else
      let p := splitDot r
      (c :: p.1, p.2)

/-- The syntactic analysis of `Number(...)`: sign, integer digits,
fraction digits. The empty string parses as `0` (no sign, no digits). -/
def jsParts (l : List Char) : Option (Bool × List Char × List Char) :=
  if l = [] then some (false, [], [])
  else
    let neg : Bool := l.head? == some '-'
    let body := if neg then l.tail else l
    let ip := (splitDot body).1
    let fp := ((splitDot body).2).getD []
    if ip.all isDigitChar ∧ fp.all isDigitChar ∧ ¬ fp.contains '.' ∧
        (ip ≠ [] ∨ fp ≠ []) then
      some (neg, ip, fp)
    else none

/-- Numeric value of the parsed parts. -/
def ratOfParts : Bool × List Char × List Char → ℚ
  | (neg, ip, fp) =>
    let v : ℚ := (digitsToNat ip : ℚ) + (digitsToNat fp : ℚ) / (10 : ℚ) ^ fp.length
    if neg then -v else v

def jsNumber (l : List Char) : Option ℚ :=
  (jsParts l).map ratOfParts

/-- `Math.trunc` (toward zero). -/
def jsTrunc (q : ℚ) : ℤ := if 0 ≤ q then ⌊q⌋ else ⌈q⌉

/-- Truncation of a parsed decimal toward zero drops the fraction digits:
the signed integer part. -/
def intOfParts : Bool × List Char × List Char → ℤ
  | (neg, ip, _) => if neg then -(digitsToNat ip : ℤ) else (digitsToNat ip : ℤ)

/-- `toInt` from gen-openprovider-prices.js / part_002:
`Math.trunc(Number(String(v).trim()))`, `null` when not finite. Defined
through the syntactic parts (`toInt_eq_trunc_number` below proves this
equal to the trunc-of-number composition of the source). -/
def toInt (v : Option String) : Option ℤ :=
  match v with
  | none => none
  | some s => (jsParts (jsTrim s.data)).map intOfParts

/-! ## parsePrice (gen-openprovider-prices.js:64-79 and part_002:355-365) -/

/-- Sentinel forms in the part_002 (typed adapter) `parsePrice`. -/
def sentinels : List String :=
  ["na", "n/a", "nonmemberprice", "non-memberprice", "non-member", "non member"]

/-- Sentinel forms in the gen-openprovider-prices.js `parsePrice`
(additionally lists `nonmember`). -/
def sentinelsLegacy : List String :=
  ["na", "n/a", "nonmemberprice", "non-memberprice", "non-member", "non member", "nonmember"]

/-- `replace(/[^0-9.\-]/g, '')`. -/
def stripToNumeric (l : List Char) : List Char :=
  l.filter (fun c => isDigitChar c || c == '.' || c == '-')

/-- `replace(/\.(?=.*\.)/g, '')`: delete every dot that is followed,
anywhere later, by another dot. -/
def removeEarlierDots : List Char → List Char
  | [] => []
  | c :: r =>
    if c = '.' ∧ r.contains '.' then removeEarlierDots r
    else c :: removeEarlierDots r

/-- part_002 `parsePrice` (the typed Sheet adapter's price parser). -/
def parsePrice (raw : Option String) : Option ℚ :=
  match raw with
  | none => none
  | some s =>
    let text := jsToLower (jsTrim s.data)
    if text = [] ∨ (sentinels.map String.data).contains text then none
    else if ¬ text.any isDigitChar then none
    else jsNumber (jsTrim (removeEarlierDots (stripToNumeric text)))

/-- gen-openprovider-prices.js `parsePrice` (identical but for the extra
`nonmember` sentinel). -/
def parsePriceLegacy (raw : Option String) : Option ℚ :=
  match raw with
  | none => none
  | some s =>
    let text := jsToLower (jsTrim s.data)
    if text = [] ∨ (sentinelsLegacy.map String.data).contains text then none
    else if ¬ text.any isDigitChar then none
    else jsNumber (jsTrim (removeEarlierDots (stripToNumeric text)))

/-! Spec-side price parser, following the words of the specification
(§4.1): trim; absent on empty; the seven sentinel forms case-insensitively
absent; absent when no digit occurs; otherwise strip every character that
is not a digit, `.` or `-`; when more than one `.` remains keep only the
last occurrence; parse the cleaned decimal. -/

/-- Keep the first `'.'` encountered, drop every later one. -/
def keepDotOnce : List Char → List Char
  | [] => []
  | c :: r =>
    if c = '.' then c :: r.filter (fun d => !(d == '.'))
    else c :: keepDotOnce r

/-- Keep only the last `'.'` of the list (the spec's "treat earlier dots
as thousands separators, last dot as the decimal point"). -/
def keepOnlyLastDot (l : List Char) : List Char :=
  (keepDotOnce l.reverse).reverse

/-- The specification's description of the price parser, assembled from
the spec's sentences (used to compare against the source functions). -/
def parsePriceSpec (raw : Option String) : Option ℚ :=
  match raw with
  | none => none
  | some s =>
    let t := jsToLower (jsTrim s.data)
    if t = [] then none
    else if (sentinelsLegacy.map String.data).contains t then none
    else if ¬ t.any isDigitChar then none
    else jsNumber (keepOnlyLastDot (stripToNumeric t))

/-! ### The dot-collapse of the source equals the spec's "keep last dot" -/

lemma keepDotOnce_append_of_no_dot (x y : List Char) (hx : ¬ '.' ∈ x) :
    keepDotOnce (x ++ y) = x ++ keepDotOnce y := by
  induction x with
  | nil => rfl
  | cons c r ih =>
    have hc : ¬ c = '.' := fun h => hx (h ▸ List.mem_cons_self c r)
    have hr : ¬ '.' ∈ r := fun h => hx (List.mem_cons_of_mem c h)
    simp only [List.cons_append, keepDotOnce, if_neg hc, List.append_eq, ih hr]

lemma keepDotOnce_append_of_dot (x y : List Char) (hx : '.' ∈ x) :
    keepDotOnce (x ++ y) = keepDotOnce x ++ y.filter (fun d => !(d == '.')) := by
  induction x with
  | nil => cases hx
  | cons c r ih =>
    by_cases hc : c = '.'
    · subst hc
      simp [keepDotOnce, List.filter_append]
    · have hr : '.' ∈ r := by
        rcases List.mem_cons.mp hx with h | h
        · exact absurd h.symm hc
        · exact h
      simp only [List.cons_append, keepDotOnce, if_neg hc, List.append_eq, ih hr]

lemma removeEarlierDots_cons_of_not_both (c : Char) (r : List Char)
    (h : ¬ (c = '.' ∧ r.contains '.' = true)) :
    removeEarlierDots (c :: r) = c :: removeEarlierDots r := by
  simp only [removeEarlierDots]
  rw [if_neg h]

lemma removeEarlierDots_cons_of_both (c : Char) (r : List Char)
    (h : c = '.' ∧ r.contains '.' = true) :
    removeEarlierDots (c :: r) = removeEarlierDots r := by
  simp only [removeEarlierDots]
  rw [if_pos h]

lemma removeEarlierDots_of_no_dot (l : List Char) (h : ¬ '.' ∈ l) :
    removeEarlierDots l = l := by
  induction l with
  | nil => rfl
  | cons c r ih =>
    have hc : ¬ c = '.' := fun hcc => h (hcc ▸ List.mem_cons_self c r)
    have hr : ¬ '.' ∈ r := fun hm => h (List.mem_cons_of_mem c hm)
    rw [removeEarlierDots_cons_of_not_both c r (fun hand => hc hand.1), ih hr]

lemma containsIffMem {α : Type} [BEq α] [LawfulBEq α] (l : List α) (a : α) :
    l.contains a = true ↔ a ∈ l := by simp

lemma keepDotOnce_of_no_dot (x : List Char) (hx : ¬ '.' ∈ x) :
    keepDotOnce x = x := by
  have h := keepDotOnce_append_of_no_dot x [] hx
  simpa [keepDotOnce] using h

/-- The source's global regex replace (delete every dot that is followed by
a later dot) computes exactly the spec's "keep only the last dot". -/
lemma removeEarlierDots_eq_keepOnlyLastDot (l : List Char) :
    removeEarlierDots l = keepOnlyLastDot l := by
  induction l with
  | nil => rfl
  | cons c r ih =>
    unfold keepOnlyLastDot at *
    have hfc : ∀ d : Char, ¬ d = '.' → [d].filter (fun e => !(e == '.')) = [d] := by
      intro d hd
      have : (d == '.') = false := beq_eq_false_iff_ne.mpr hd
      simp [List.filter, this]
    have hkc : ∀ d : Char, ¬ d = '.' → keepDotOnce [d] = [d] := by
      intro d hd
      simp [keepDotOnce, hd]
    by_cases hc : c = '.'
    · by_cases hr : '.' ∈ r
      · have hrrev : '.' ∈ r.reverse := List.mem_reverse.mpr hr
        have hcont : r.contains '.' = true := (containsIffMem r '.').mpr hr
        subst hc
        rw [removeEarlierDots_cons_of_both _ _ ⟨rfl, hcont⟩, ih]
        simp only [List.reverse_cons]
        rw [keepDotOnce_append_of_dot _ _ hrrev]
        simp [List.filter]
      · have hcont : ¬ (('.' : Char) = '.' ∧ r.contains '.' = true) :=
          fun hand => hr ((containsIffMem r '.').mp hand.2)
        have hrrev : ¬ '.' ∈ r.reverse := fun h => hr (List.mem_reverse.mp h)
        subst hc
        rw [removeEarlierDots_cons_of_not_both _ _ hcont, removeEarlierDots_of_no_dot r hr]
        simp only [List.reverse_cons]
        rw [keepDotOnce_append_of_no_dot _ _ hrrev]
        simp [keepDotOnce]
    · rw [removeEarlierDots_cons_of_not_both _ _ (fun hand => hc hand.1), ih]
      simp only [List.reverse_cons]
      by_cases hr : '.' ∈ r
      · have hrrev : '.' ∈ r.reverse := List.mem_reverse.mpr hr
        rw [keepDotOnce_append_of_dot _ _ hrrev, hfc c hc]
        simp
      · have hrrev : ¬ '.' ∈ r.reverse := fun h => hr (List.mem_reverse.mp h)
        rw [keepDotOnce_append_of_no_dot _ _ hrrev, hkc c hc, keepDotOnce_of_no_dot _ hrrev]
        simp

/-! ### The second trim of the source is a no-op on stripped text -/

lemma isJsSpace_false_of_numericChar (c : Char)
    (h : isDigitChar c || c == '.' || c == '-') : isJsSpace c = false := by
  have hrange : (48 ≤ c.toNat ∧ c.toNat ≤ 57) ∨ c.toNat = 46 ∨ c.toNat = 45 := by
    simp only [isDigitChar, Bool.or_eq_true, Bool.and_eq_true,
      decide_eq_true_eq, beq_iff_eq] at h
    rcases h with (hd | hdot) | hdash
    · left
      have h1 : ('0' : Char).toNat ≤ c.toNat := by
        have := hd.1
        simpa [Char.le_def, Char.toNat] using this
      have h2 : c.toNat ≤ ('9' : Char).toNat := by
        have := hd.2
        simpa [Char.le_def, Char.toNat] using this
      exact ⟨h1, h2⟩
    · right; left; rw [hdot]; rfl
    · right; right; rw [hdash]; rfl
  simp only [isJsSpace, jsSpaceCodes]
  rw [Bool.eq_false_iff]
  intro hmem
  rw [containsIffMem] at hmem
  simp only [List.mem_cons, List.not_mem_nil, or_false] at hmem
  omega

lemma dropWhile_eq_self_of_false (l : List Char) (p : Char → Bool)
    (h : ∀ c ∈ l, p c = false) : l.dropWhile p = l := by
  rw [List.dropWhile_eq_self_iff]
  intro hne
  have hm : l.get ⟨0, hne⟩ ∈ l := List.get_mem l 0 hne
  rw [h _ hm]
  simp

lemma jsTrim_of_no_space (l : List Char) (h : ∀ c ∈ l, isJsSpace c = false) :
    jsTrim l = l := by
  unfold jsTrim
  rw [dropWhile_eq_self_of_false l _ h]
  rw [dropWhile_eq_self_of_false l.reverse _ (fun c hc => h c (List.mem_reverse.mp hc))]
  exact List.reverse_reverse l

lemma mem_of_mem_removeEarlierDots {c : Char} {l : List Char}
    (h : c ∈ removeEarlierDots l) : c ∈ l := by
  induction l with
  | nil => cases h
  | cons d r ih =>
    by_cases hd : d = '.' ∧ r.contains '.' = true
    · rw [removeEarlierDots_cons_of_both d r hd] at h
      exact List.mem_cons_of_mem d (ih h)
    · rw [removeEarlierDots_cons_of_not_both d r hd] at h
      rcases List.mem_cons.mp h with h1 | h1
      · exact h1 ▸ List.mem_cons_self d r
      · exact List.mem_cons_of_mem d (ih h1)

lemma jsTrim_removeEarlierDots_strip (l : List Char) :
    jsTrim (removeEarlierDots (stripToNumeric l)) = removeEarlierDots (stripToNumeric l) := by
  apply jsTrim_of_no_space
  intro c hc
  have hmem : c ∈ stripToNumeric l := mem_of_mem_removeEarlierDots hc
  have hpred := List.of_mem_filter hmem
  exact isJsSpace_false_of_numericChar c hpred

/-! ### The two source price parsers agree with the spec's description -/

lemma parsePrice_eq_spec (raw : Option String) : parsePrice raw = parsePriceSpec raw := by
  cases raw with
  | none => rfl
  | some s =>
    show parsePrice (some s) = parsePriceSpec (some s)
    simp only [parsePrice, parsePriceSpec]
    by_cases h0 : jsToLower (jsTrim s.data) = []
    · rw [if_pos (Or.inl h0), if_pos h0]
    · rw [if_neg h0]
      by_cases h6 : (sentinels.map String.data).contains (jsToLower (jsTrim s.data)) = true
      · have h7 : (sentinelsLegacy.map String.data).contains (jsToLower (jsTrim s.data)) = true := by
          rw [containsIffMem] at h6 ⊢
          simp only [sentinels, sentinelsLegacy, List.map, List.mem_cons,
            List.not_mem_nil, or_false] at h6 ⊢
          tauto
        rw [if_pos (Or.inr h6), if_pos h7]
      · rw [if_neg (fun hor => by
          rcases hor with h | h
          · exact h0 h
          · exact h6 h)]
        by_cases h7 : (sentinelsLegacy.map String.data).contains (jsToLower (jsTrim s.data)) = true
        · have hnm : jsToLower (jsTrim s.data) = ("nonmember" : String).data := by
            rw [containsIffMem] at h7
            have h6m : ¬ jsToLower (jsTrim s.data) ∈ (sentinels.map String.data) :=
              fun hm => h6 ((containsIffMem _ _).mpr hm)
            simp only [sentinels, sentinelsLegacy, List.map, List.mem_cons,
              List.not_mem_nil, or_false] at h7 h6m
            push_neg at h6m
            tauto
          have hnodigit : ¬ (jsToLower (jsTrim s.data)).any isDigitChar = true := by
            rw [hnm]; decide
          rw [if_pos h7, if_pos hnodigit]
        · rw [if_neg h7]
          by_cases hd : (jsToLower (jsTrim s.data)).any isDigitChar = true
          · rw [if_neg (fun h => h hd), if_neg (fun h => h hd)]
            rw [jsTrim_removeEarlierDots_strip, removeEarlierDots_eq_keepOnlyLastDot]
          · rw [if_pos hd, if_pos hd]

/-! ### Evaluation helpers and digit-tracing lemmas -/

lemma parsePrice_concrete (s : String) (cl : List Char) (neg : Bool) (ip fp : List Char)
    (h0 : ¬ (jsToLower (jsTrim s.data) = [] ∨
      (sentinels.map String.data).contains (jsToLower (jsTrim s.data)) = true))
    (h1 : (jsToLower (jsTrim s.data)).any isDigitChar = true)
    (hcl : jsTrim (removeEarlierDots (stripToNumeric (jsToLower (jsTrim s.data)))) = cl)
    (hp : jsParts cl = some (neg, ip, fp)) :
    parsePrice (some s) = some (ratOfParts (neg, ip, fp)) := by
  simp only [parsePrice]
  rw [if_neg h0, if_neg (fun h => h h1), hcl]
  show (jsParts cl).map ratOfParts = _
  rw [hp]
  rfl

lemma ratOfParts_eval (neg : Bool) (ip fp : List Char) (a b k : ℕ)
    (ha : digitsToNat ip = a) (hb : digitsToNat fp = b) (hk : fp.length = k) :
    ratOfParts (neg, ip, fp)
      = if neg then -((a : ℚ) + (b : ℚ) / 10 ^ k) else ((a : ℚ) + (b : ℚ) / 10 ^ k) := by
  simp only [ratOfParts, ha, hb, hk]

lemma mem_splitDot_fst {c : Char} : ∀ {l : List Char}, c ∈ (splitDot l).1 → c ∈ l := by
  intro l
  induction l with
  | nil => intro h; cases h
  | cons d r ih =>
    intro h
    by_cases hd : d = '.'
    · rw [show splitDot (d :: r) = ([], some r) by simp [splitDot, hd]] at h
      cases h
    · rw [show splitDot (d :: r) = (d :: (splitDot r).1, (splitDot r).2) by
        simp [splitDot, hd]] at h
      rcases List.mem_cons.mp h with h1 | h1
      · exact h1 ▸ List.mem_cons_self d r
      · exact List.mem_cons_of_mem d (ih h1)

lemma mem_splitDot_snd {c : Char} :
    ∀ {l r : List Char}, (splitDot l).2 = some r → c ∈ r → c ∈ l := by
  intro l
  induction l with
  | nil => intro r h; simp [splitDot] at h
  | cons d t ih =>
    intro r h hc
    by_cases hd : d = '.'
    · rw [show splitDot (d :: t) = ([], some t) by simp [splitDot, hd]] at h
      cases h
      exact List.mem_cons_of_mem d hc
    · rw [show splitDot (d :: t) = (d :: (splitDot t).1, (splitDot t).2) by
        simp [splitDot, hd]] at h
      exact List.mem_cons_of_mem d (ih h hc)

/-- A successful non-zero `Number(...)` parse requires a digit in the text. -/
lemma jsNumber_some_nonzero_has_digit {l : List Char} {q : ℚ}
    (h : jsNumber l = some q) (hq : q ≠ 0) : ∃ c ∈ l, isDigitChar c = true := by
  simp only [jsNumber] at h
  by_cases hl : l = []
  · subst hl
    rw [show jsParts ([] : List Char) = some (false, [], []) from rfl] at h
    have hzq : ratOfParts (false, ([] : List Char), ([] : List Char)) = q := by
      injection h
    rw [ratOfParts_eval false [] [] 0 0 0 rfl rfl rfl] at hzq
    norm_num at hzq
    exact absurd hzq.symm hq
  · obtain ⟨p, hp, _⟩ : ∃ p, jsParts l = some p ∧ ratOfParts p = q := by
      rcases he : jsParts l with _ | p
      · rw [he] at h
        cases h
      · rw [he] at h
        exact ⟨p, rfl, by injection h⟩
    simp only [jsParts, if_neg hl] at hp
    set body := if (l.head? == some '-') = true then l.tail else l with hbody
    have hbodysub : ∀ c : Char, c ∈ body → c ∈ l := by
      intro c hc
      rw [hbody] at hc
      by_cases hneg : (l.head? == some '-') = true
      · rw [if_pos hneg] at hc
        exact List.mem_of_mem_tail hc
      · rw [if_neg hneg] at hc
        exact hc
    split at hp
    pick_goal 2
    · cases hp
    next hcond =>
      obtain ⟨hip, hfp, _, hne⟩ := hcond
      rcases hne with hne | hne
      · obtain ⟨d, hd⟩ := List.exists_mem_of_ne_nil _ hne
        refine ⟨d, hbodysub d (mem_splitDot_fst hd), ?_⟩
        exact List.all_eq_true.mp hip d hd
      · obtain ⟨d, hd⟩ := List.exists_mem_of_ne_nil _ hne
        have hsnd : ∃ r, (splitDot body).2 = some r := by
          rcases hr : (splitDot body).2 with _ | r
          · rw [hr] at hd
            cases hd
          · exact ⟨r, rfl⟩
        obtain ⟨r, hr⟩ := hsnd
        rw [hr] at hd hfp
        refine ⟨d, hbodysub d (mem_splitDot_snd hr hd), ?_⟩
        exact List.all_eq_true.mp hfp d hd

lemma digitsToNat_lt_aux : ∀ (l : List Char) (a : ℕ), l.all isDigitChar = true →
    l.foldl (fun a c => a * 10 + (c.toNat - 48)) a < (a + 1) * 10 ^ l.length := by
  intro l
  induction l with
  | nil =>
    intro a _
    simp only [List.foldl_nil, List.length_nil, pow_zero, Nat.mul_one]
    exact Nat.lt_succ_self a
  | cons c r ih =>
    intro a hall
    simp only [List.all_cons, Bool.and_eq_true] at hall
    have hd : c.toNat - 48 ≤ 9 := by
      have h9 : c.toNat ≤ 57 := by
        have hle : c ≤ '9' := by
          have := hall.1
          simp only [isDigitChar, Bool.and_eq_true, decide_eq_true_eq] at this
          exact this.2
        simp only [Char.le_def] at hle
        exact hle
      omega
    have hstep := ih (a * 10 + (c.toNat - 48)) hall.2
    simp only [List.foldl_cons, List.length_cons]
    calc List.foldl (fun a c => a * 10 + (c.toNat - 48))
          (a * 10 + (c.toNat - 48)) r
        < (a * 10 + (c.toNat - 48) + 1) * 10 ^ r.length := hstep
      _ ≤ ((a + 1) * 10) * 10 ^ r.length := by
          apply Nat.mul_le_mul_right
          omega
      _ = (a + 1) * 10 ^ (r.length + 1) := by ring

lemma digitsToNat_lt (l : List Char) (h : l.all isDigitChar = true) :
    digitsToNat l < 10 ^ l.length := by
  have := digitsToNat_lt_aux l 0 h
  simpa [digitsToNat] using this

lemma jsParts_some_digits {l : List Char} {neg : Bool} {ip fp : List Char}
    (h : jsParts l = some (neg, ip, fp)) :
    ip.all isDigitChar = true ∧ fp.all isDigitChar = true := by
  by_cases hl : l = []
  · subst hl
    rw [show jsParts ([] : List Char) = some (false, [], []) from rfl] at h
    injection h with h3
    injection h3 with hneg hrest
    injection hrest with hip hfp
    rw [← hip, ← hfp]
    exact ⟨rfl, rfl⟩
  · simp only [jsParts, if_neg hl] at h
    set body := if (l.head? == some '-') = true then l.tail else l with hbody
    split at h
    next hcond =>
      injection h with h3
      injection h3 with hneg hrest
      injection hrest with hip hfp
      rw [← hip, ← hfp]
      exact ⟨hcond.1, hcond.2.1⟩
    next => cases h

lemma jsTrunc_ratOfParts {l : List Char} {p : Bool × List Char × List Char}
    (h : jsParts l = some p) : jsTrunc (ratOfParts p) = intOfParts p := by
  obtain ⟨neg, ip, fp⟩ := p
  obtain ⟨hip, hfp⟩ := jsParts_some_digits h
  have ha0 : (0 : ℚ) ≤ (digitsToNat ip : ℚ) := by positivity
  have hf0 : (0 : ℚ) ≤ (digitsToNat fp : ℚ) / 10 ^ fp.length := by positivity
  have hf1 : (digitsToNat fp : ℚ) / 10 ^ fp.length < 1 := by
    rw [div_lt_one (by positivity)]
    exact_mod_cast digitsToNat_lt fp hfp
  have hfloor : ⌊(digitsToNat ip : ℚ) + (digitsToNat fp : ℚ) / 10 ^ fp.length⌋
      = (digitsToNat ip : ℤ) := by
    rw [Int.floor_eq_iff]
    constructor
    · push_cast
      linarith
    · push_cast
      linarith
  cases neg with
  | false =>
    have hval : ratOfParts (false, ip, fp)
        = (digitsToNat ip : ℚ) + (digitsToNat fp : ℚ) / 10 ^ fp.length := rfl
    have hint : intOfParts (false, ip, fp) = (digitsToNat ip : ℤ) := rfl
    rw [hval, hint]
    simp only [jsTrunc]
    rw [if_pos (by linarith)]
    exact hfloor
  | true =>
    have hval : ratOfParts (true, ip, fp)
        = -((digitsToNat ip : ℚ) + (digitsToNat fp : ℚ) / 10 ^ fp.length) := rfl
    have hint : intOfParts (true, ip, fp) = -(digitsToNat ip : ℤ) := rfl
    rw [hval, hint]
    simp only [jsTrunc]
    by_cases h0 : (0 : ℚ) ≤ -((digitsToNat ip : ℚ) + (digitsToNat fp : ℚ) / 10 ^ fp.length)
    · have hz : (digitsToNat ip : ℚ) + (digitsToNat fp : ℚ) / 10 ^ fp.length = 0 := by
        linarith
      have hiz : (digitsToNat ip : ℚ) = 0 := by linarith
      rw [if_pos h0, hz]
      simp only [neg_zero, Int.floor_zero]
      have hzz : (digitsToNat ip : ℤ) = 0 := by exact_mod_cast hiz
      omega
    · rw [if_neg h0, Int.ceil_neg, hfloor]

/-- Justification of the `toInt` embedding: its value is exactly the
source's `Math.trunc(Number(String(v).trim()))` (absent when NaN). -/
lemma toInt_eq_trunc_number (v : Option String) :
    toInt v =
      match v with
      | none => none
      | some s => (jsNumber (jsTrim s.data)).map jsTrunc := by
  cases v with
  | none => rfl
  | some s =>
    simp only [toInt, jsNumber]
    rcases hp : jsParts (jsTrim s.data) with _ | p
    · rfl
    · simp only [Option.map_some']
      rw [jsTrunc_ratOfParts hp]

lemma parsePriceLegacy_eq_spec (raw : Option String) :
    parsePriceLegacy raw = parsePriceSpec raw := by
  cases raw with
  | none => rfl
  | some s =>
    show parsePriceLegacy (some s) = parsePriceSpec (some s)
    simp only [parsePriceLegacy, parsePriceSpec]
    by_cases h0 : jsToLower (jsTrim s.data) = []
    · rw [if_pos (Or.inl h0), if_pos h0]
    · rw [if_neg h0]
      by_cases h7 : (sentinelsLegacy.map String.data).contains (jsToLower (jsTrim s.data)) = true
      · rw [if_pos (Or.inr h7), if_pos h7]
      · rw [if_neg (fun hor => by
          rcases hor with h | h
          · exact h0 h
          · exact h7 h), if_neg h7]
        by_cases hd : (jsToLower (jsTrim s.data)).any isDigitChar = true
        · rw [if_neg (fun h => h hd), if_neg (fun h => h hd)]
          rw [jsTrim_removeEarlierDots_strip, removeEarlierDots_eq_keepOnlyLastDot]
        · rw [if_pos hd, if_pos hd]

/-! ## Claim theorems for the price parser -/

/-- C3: parsePrice returns absent for null/undefined, empty-after-trim text,
the case-insensitive sentinel forms (na, n/a, nonmemberprice,
non-memberprice, non-member, non member, nonmember) and digit-free text;
otherwise it strips every character that is not a digit, `.` or `-`, keeps
only the last `.` when more than one remains, and returns absent when the
cleaned string does not parse to a finite number. Both source variants
(the typed adapter's and the standalone script's) coincide extensionally
with this spec-side description for every input — in particular
`parsePrice "1.234.56" = 1234.56` and `parsePrice "$8.27" = 8.27` — and,
being total Lean functions mirroring straight-line JS, never throw. -/
theorem C3_parsePrice_matches_spec :
    (∀ raw, parsePrice raw = parsePriceSpec raw) ∧
    (∀ raw, parsePriceLegacy raw = parsePriceSpec raw) ∧
    parsePrice none = none ∧
    parsePrice (some "1.234.56") = some (123456 / 100 : ℚ) ∧
    parsePrice (some "$8.27") = some (827 / 100 : ℚ) := by
  refine ⟨parsePrice_eq_spec, parsePriceLegacy_eq_spec, rfl, ?_, ?_⟩
  · rw [parsePrice_concrete "1.234.56" (("1234.56" : String).data) false
      (("1234" : String).data) (("56" : String).data)
      (by decide) (by decide) (by decide) (by decide)]
    rw [ratOfParts_eval false _ _ 1234 56 2 (by decide) (by decide) (by decide)]
    norm_num
  · rw [parsePrice_concrete "$8.27" (("8.27" : String).data) false
      (("8" : String).data) (("27" : String).data)
      (by decide) (by decide) (by decide) (by decide)]
    rw [ratOfParts_eval false _ _ 8 27 2 (by decide) (by decide) (by decide)]
    norm_num

/-- C4 counterexample: the claim says a price cell whose cleaned numeric
value is negative normalizes to absent; the code instead returns the
negative number: `parsePrice "-5" = -5` and `parsePrice "-1.50" = -1.5`,
neither of which is `none`. -/
theorem C4_counterexample_negative_not_absent :
    parsePrice (some "-5") = some (-5 : ℚ) ∧
    parsePrice (some "-1.50") = some (-(3 / 2) : ℚ) ∧
    parsePrice (some "-5") ≠ none := by
  refine ⟨?_, ?_, ?_⟩
  · rw [parsePrice_concrete "-5" (("-5" : String).data) true
      (("5" : String).data) ([])
      (by decide) (by decide) (by decide) (by decide)]
    rw [ratOfParts_eval true _ _ 5 0 0 (by decide) (by decide) (by decide)]
    norm_num
  · rw [parsePrice_concrete "-1.50" (("-1.50" : String).data) true
      (("1" : String).data) (("50" : String).data)
      (by decide) (by decide) (by decide) (by decide)]
    rw [ratOfParts_eval true _ _ 1 50 2 (by decide) (by decide) (by decide)]
    norm_num
  · rw [parsePrice_concrete "-5" (("-5" : String).data) true
      (("5" : String).data) ([])
      (by decide) (by decide) (by decide) (by decide)]
    simp

/-- C4 amended: for every price-cell input whose cleaned text parses to a
negative number q, parsePrice yields q itself (the negative number), not
absent; only cleaned strings that fail to parse yield absent. -/
theorem C4_amended_negative_passthrough (s : String) (q : ℚ) (hq : q < 0)
    (h : jsNumber (jsTrim (removeEarlierDots (stripToNumeric (jsToLower (jsTrim s.data)))))
      = some q) :
    parsePrice (some s) = some q := by
  have hq0 : q ≠ 0 := ne_of_lt hq
  obtain ⟨c, hcmem, hcdig⟩ := jsNumber_some_nonzero_has_digit h hq0
  have hctext : c ∈ jsToLower (jsTrim s.data) := by
    have h1 : c ∈ removeEarlierDots (stripToNumeric (jsToLower (jsTrim s.data))) := by
      rwa [jsTrim_removeEarlierDots_strip] at hcmem
    exact List.mem_of_mem_filter (mem_of_mem_removeEarlierDots h1)
  have ht0 : ¬ jsToLower (jsTrim s.data) = [] := by
    intro hh
    rw [hh] at hctext
    cases hctext
  have hdigit : (jsToLower (jsTrim s.data)).any isDigitChar = true :=
    List.any_eq_true.mpr ⟨c, hctext, hcdig⟩
  have hsent : ¬ (sentinels.map String.data).contains (jsToLower (jsTrim s.data)) = true := by
    intro hcontains
    rw [containsIffMem] at hcontains
    have hnod : ∀ u ∈ sentinels.map String.data, ∀ d ∈ u, isDigitChar d = false := by decide
    have hfalse := hnod _ hcontains c hctext
    rw [hcdig] at hfalse
    cases hfalse
  simp only [parsePrice]
  rw [if_neg (fun hor => by
    rcases hor with hh | hh
    · exact ht0 hh
    · exact hsent hh)]
  rw [if_neg (fun hh => hh hdigit)]
  exact h

/-- C4 amended, witness: the amended theorem applied at the concrete
input `"-5"` with value `-5`. -/
theorem C4_amended_witness : parsePrice (some "-5") = some (-5 : ℚ) := by
  apply C4_amended_negative_passthrough "-5" (-5) (by norm_num)
  rw [show jsTrim (removeEarlierDots (stripToNumeric (jsToLower (jsTrim ("-5" : String).data))))
      = ("-5" : String).data from by decide]
  show (jsParts (("-5" : String).data)).map ratOfParts = _
  rw [show jsParts (("-5" : String).data) = some (true, ("5" : String).data, []) from by decide]
  show some (ratOfParts _) = _
  rw [ratOfParts_eval true _ _ 5 0 0 (by decide) (by decide) (by decide)]
  norm_num

/-! ## Sheet header location

Two implementations exist in the repository: `findHeaderRow` in
gen-openprovider-prices.js (window of the first 15 parsed rows), and
`OpenproviderRegistrar.parse` in part_002 (a plain `findIndex` over all
parsed rows). -/

/-- `cleanHeader`/`normalizeHeader`: strip BOM characters, then trim. -/
def cleanHeader (s : String) : String :=
  ⟨jsTrim (s.data.filter (fun c => !(c == '﻿')))⟩

def REQUIRED_HEADERS : List String :=
  ["TLD", "Years", "Operation", "Price", "Basic \\ Pro \\ Expert", "Supreme"]

/-- A parsed row qualifies as the header row when its cleaned cells
contain every required header verbatim. -/
def rowQualifies (row : List String) : Bool :=
  REQUIRED_HEADERS.all (fun h => (row.map cleanHeader).contains h)

/-- The scan loop of `findHeaderRow`: first qualifying index, with a
remaining-budget bound (the script uses `Math.min(15, allRows.length)`). -/
def scanHeader : List (List String) → ℕ → Option ℕ
  | _, 0 => none
  | [], _ + 1 => none
  | row :: rest, b + 1 =>
    if rowQualifies row then some 0 else (scanHeader rest b).map (· + 1)

/-- gen-openprovider-prices.js `findHeaderRow`: scan at most the first 15
rows; on success return the cleaned header row and the data start index;
on failure throw an error carrying the first row's headers. -/
def findHeaderRow (allRows : List (List String)) :
    Except (List String) (List String × ℕ) :=
  match scanHeader allRows 15 with
  | some i => .ok ((allRows.getD i []).map cleanHeader, i + 1)
  | none => .error (allRows.headD [])

/-- part_002 `OpenproviderRegistrar.parse` header location:
`normalized.findIndex(row => REQUIRED_HEADERS.every(h => row.includes(h)))`
— no window limit. -/
def opFindHeaderIndex : List (List String) → Option ℕ
  | [] => none
  | row :: rest =>
    if rowQualifies row then some 0 else (opFindHeaderIndex rest).map (· + 1)

lemma scanHeader_eq_opFindHeaderIndex (rows : List (List String)) (b : ℕ) :
    scanHeader rows b =
      match opFindHeaderIndex rows with
      | some i => if i < b then some i else none
      | none => none := by
  induction rows generalizing b with
  | nil =>
    cases b with
    | zero => rfl
    | succ b => rfl
  | cons row rest ih =>
    cases b with
    | zero =>
      simp only [scanHeader, opFindHeaderIndex]
      by_cases hq : rowQualifies row = true
      · rw [if_pos hq]
        simp
      · rw [if_neg hq]
        rcases opFindHeaderIndex rest with _ | i
        · rfl
        · simp
    | succ b =>
      simp only [scanHeader, opFindHeaderIndex]
      by_cases hq : rowQualifies row = true
      · rw [if_pos hq, if_pos hq]
        simp
      · rw [if_neg hq, if_neg hq, ih b]
        rcases opFindHeaderIndex rest with _ | i
        · rfl
        · by_cases hib : i < b
          · have h2 : i + 1 < b + 1 := by omega
            simp [hib, h2]
          · have h2 : ¬ i + 1 < b + 1 := by omega
            simp [hib, h2]

deriving instance DecidableEq for Except

lemma opFindHeaderIndex_some_iff (rows : List (List String)) (i : ℕ) :
    opFindHeaderIndex rows = some i ↔
      i < rows.length ∧ rowQualifies (rows.getD i []) = true ∧
        ∀ j < i, ¬ rowQualifies (rows.getD j []) = true := by
  induction rows generalizing i with
  | nil =>
    simp only [opFindHeaderIndex, List.length_nil]
    constructor
    · intro h
      cases h
    · intro ⟨h, _⟩
      omega
  | cons row rest ih =>
    simp only [opFindHeaderIndex]
    by_cases hq : rowQualifies row = true
    · rw [if_pos hq]
      constructor
      · intro h
        have hi : i = 0 := by
          injection h with h
          omega
        subst hi
        refine ⟨by simp, by simpa using hq, by omega⟩
      · intro ⟨_, _, hmin⟩
        by_cases hi : i = 0
        · subst hi
          rfl
        · exact absurd (by simpa using hq) (by simpa using hmin 0 (by omega))
    · rw [if_neg hq]
      constructor
      · intro h
        obtain ⟨k, hk, hik⟩ := Option.map_eq_some'.mp h
        subst hik
        obtain ⟨hlen, hqual, hmin⟩ := (ih k).mp hk
        refine ⟨by simpa using hlen, by simpa using hqual, ?_⟩
        intro j hj
        cases j with
        | zero => simpa using hq
        | succ j => simpa using hmin j (by omega)
      · intro ⟨hlen, hqual, hmin⟩
        cases i with
        | zero => exact absurd (by simpa using hqual) hq
        | succ k =>
          have : opFindHeaderIndex rest = some k := by
            refine (ih k).mpr ⟨by simpa using hlen, by simpa using hqual, ?_⟩
            intro j hj
            simpa using hmin (j + 1) (by omega)
          rw [this]
          rfl

/-- A complete header row, used as a concrete test vector. -/
def hdrRow : List String :=
  ["TLD", "Years", "Operation", "Price", "Basic \\ Pro \\ Expert", "Supreme"]

/-- C2 counterexample: with fifteen junk rows followed by a qualifying
header row at scan index 15, the claim demands the Sheet adapter fail
fatally; the typed adapter's parse (part_002) instead locates the header
at index 15 (no window limit). The standalone script's findHeaderRow does
error there, so the two cited implementations disagree. -/
theorem C2_counterexample_row15_found :
    opFindHeaderIndex (List.replicate 15 ["x"] ++ [hdrRow]) = some 15 ∧
    rowQualifies hdrRow = true ∧
    findHeaderRow (List.replicate 15 ["x"] ++ [hdrRow]) = .error ["x"] := by
  refine ⟨by decide, by decide, by decide⟩

/-- C2 amended: the typed Sheet adapter's parse locates the first row (at
any index, no 15-row window) whose cleaned cells contain every required
header; the standalone script's findHeaderRow agrees with it whenever that
first qualifying index is below 15 (so a header row at scan index 14 is
found, with data starting at 15) and otherwise fails fatally with an error
carrying the first row's headers — including when a qualifying row exists
at index 15 or later, where the typed adapter succeeds instead. -/
theorem C2_amended_header_scan :
    (∀ rows i, opFindHeaderIndex rows = some i ↔
      i < rows.length ∧ rowQualifies (rows.getD i []) = true ∧
        ∀ j < i, ¬ rowQualifies (rows.getD j []) = true) ∧
    (∀ rows i, opFindHeaderIndex rows = some i → i < 15 →
      findHeaderRow rows = .ok ((rows.getD i []).map cleanHeader, i + 1)) ∧
    (∀ rows i, opFindHeaderIndex rows = some i → 15 ≤ i →
      findHeaderRow rows = .error (rows.headD [])) ∧
    (∀ rows, opFindHeaderIndex rows = none →
      findHeaderRow rows = .error (rows.headD [])) ∧
    findHeaderRow (List.replicate 14 ["x"] ++ [hdrRow]) = .ok (hdrRow, 15) := by
  refine ⟨opFindHeaderIndex_some_iff, ?_, ?_, ?_, by decide⟩
  · intro rows i h hlt
    simp only [findHeaderRow, scanHeader_eq_opFindHeaderIndex, h]
    rw [if_pos hlt]
  · intro rows i h hge
    simp only [findHeaderRow, scanHeader_eq_opFindHeaderIndex, h]
    rw [if_neg (by omega)]
  · intro rows h
    simp only [findHeaderRow, scanHeader_eq_opFindHeaderIndex, h]

/-- C2 amended, witness: the window-agreement conjunct applied to the
concrete sheet with the header row at scan index 14. -/
theorem C2_amended_header_scan_witness :
    findHeaderRow (List.replicate 14 ["x"] ++ [hdrRow])
      = .ok (((List.replicate 14 ["x"] ++ [hdrRow]).getD 14 []).map cleanHeader, 15) :=
  C2_amended_header_scan.2.1 (List.replicate 14 ["x"] ++ [hdrRow]) 14
    (by decide) (by decide)

/-! ## Sheet row processing (part_002 OpenproviderRegistrar.parse:426-446,
mirrored by gen-openprovider-prices.js main:193-219)

JS objects are association lists; `upsert` is JS property assignment. -/

def upsert {α : Type} (m : List (String × α)) (k : String) (v : α) :
    List (String × α) :=
  match m with
  | [] => [(k, v)]
  | (k0, v0) :: rest => if k0 = k then (k, v) :: rest else (k0, v0) :: upsert rest k v

structure TldEntry where
  maxYears : ℤ
  regular : List (String × ℚ)
  member : List (String × ℚ)
deriving DecidableEq

def emptyTldEntry : TldEntry := ⟨0, [], []⟩

/-- Column indexes bound by `inferColumns` from the located header row. -/
structure Columns where
  tld : ℕ
  years : ℕ
  operation : ℕ
  price : ℕ
  member : ℕ

/-- `String(rawRow[i] ?? '')`. -/
def cellStr (row : List String) (i : ℕ) : String := row.getD i ""

def rowTld (cols : Columns) (row : List String) : String := trimS (cellStr row cols.tld)

def rowYears (cols : Columns) (row : List String) : Option ℤ :=
  toInt (row.get? cols.years)

def rowOp (cols : Columns) (row : List String) : String :=
  lowerS (trimS (cellStr row cols.operation))

def rowNonMember (cols : Columns) (row : List String) : Option ℚ :=
  parsePrice (row.get? cols.price)

def rowMemberCell (cols : Columns) (row : List String) : String :=
  trimS (cellStr row cols.member)

/-- The member-cell label test `/^non[-\s]?member price$/i`. -/
def memberLabelMatch (s : String) : Bool :=
  match jsToLower s.data with
  | 'n' :: 'o' :: 'n' :: rest =>
    rest == ("member price" : String).data ||
    (match rest with
     | c :: rest2 => (c == '-' || isJsSpace c) && rest2 == ("member price" : String).data
     | [] => false)
  | _ => false

def rowMember (cols : Columns) (row : List String) : Option ℚ :=
  if memberLabelMatch (rowMemberCell cols row) then rowNonMember cols row
  else parsePrice (some (rowMemberCell cols row))

/-- One iteration of the row loop. -/
def opStep (cols : Columns) (st : List (String × TldEntry)) (row : List String) :
    List (String × TldEntry) :=
  if row = [] then st
  else
    match rowYears cols row with
    | none => st
    | some years =>
      if rowTld cols row = "" ∨ rowOp cols row = "" then st
      else
        let tld := rowTld cols row
        let op := rowOp cols row
        let nonMember := rowNonMember cols row
        let member := rowMember cols row
        let st1 := if (st.lookup tld).isSome then st else upsert st tld emptyTldEntry
        let e0 := (st1.lookup tld).getD emptyTldEntry
        let e1 := if nonMember.isSome ∨ member.isSome then
            { e0 with maxYears := max e0.maxYears years } else e0
        let e2 := if years = 1 then
            let ea := match nonMember with
              | some v => { e1 with regular := upsert e1.regular op v }
              | none => e1
            match member with
            | some v => { ea with member := upsert ea.member op v }
            | none => ea
          else e1
        upsert st1 tld e2

def opProcessRows (cols : Columns) (rows : List (List String)) :
    List (String × TldEntry) :=
  rows.foldl (opStep cols) []

/-! ### Row classification and state accessors -/

def rowAcceptedB (cols : Columns) (row : List String) : Bool :=
  !(row == []) && (rowYears cols row).isSome &&
    !(rowTld cols row == "") && !(rowOp cols row == "")

def rowPricedB (cols : Columns) (row : List String) : Bool :=
  rowAcceptedB cols row &&
    ((rowNonMember cols row).isSome || (rowMember cols row).isSome)

def acceptedFor (cols : Columns) (rows : List (List String)) (t : String) :
    List (List String) :=
  rows.filter (fun r => rowAcceptedB cols r && (rowTld cols r == t))

def pricedYearsFor (cols : Columns) (rows : List (List String)) (t : String) :
    List ℤ :=
  (rows.filter (fun r => rowPricedB cols r && (rowTld cols r == t))).map
    (fun r => (rowYears cols r).getD 0)

def maxYearsOf (st : List (String × TldEntry)) (t : String) : Option ℤ :=
  (st.lookup t).map TldEntry.maxYears

def regularOf (st : List (String × TldEntry)) (t : String) : List (String × ℚ) :=
  ((st.lookup t).getD emptyTldEntry).regular

def memberOf (st : List (String × TldEntry)) (t : String) : List (String × ℚ) :=
  ((st.lookup t).getD emptyTldEntry).member

/-! ### Association-list lemmas -/

lemma lookup_upsert_self {α : Type} (m : List (String × α)) (k : String) (v : α) :
    (upsert m k v).lookup k = some v := by
  induction m with
  | nil => simp [upsert, List.lookup]
  | cons p rest ih =>
    obtain ⟨k0, v0⟩ := p
    by_cases h : k0 = k
    · simp [upsert, h, List.lookup]
    · simp only [upsert, if_neg h, List.lookup]
      rw [show (k == k0) = false from beq_eq_false_iff_ne.mpr (fun hh => h hh.symm)]
      exact ih

lemma lookup_upsert_ne {α : Type} (m : List (String × α)) (k k2 : String) (v : α)
    (h : k2 ≠ k) : (upsert m k v).lookup k2 = m.lookup k2 := by
  induction m with
  | nil =>
    simp only [upsert, List.lookup]
    rw [show (k2 == k) = false from beq_eq_false_iff_ne.mpr h]
  | cons p rest ih =>
    obtain ⟨k0, v0⟩ := p
    by_cases h0 : k0 = k
    · subst h0
      simp only [upsert, if_pos rfl, List.lookup]
      rw [show (k2 == k0) = false from beq_eq_false_iff_ne.mpr h]
    · simp only [upsert, if_neg h0, List.lookup]
      rcases hbe : (k2 == k0) with _ | _
      · exact ih
      · rfl

/-! ### Step characterization -/

/-- The entry written for the row's TLD by one accepted iteration, as a
function of the previous entry. -/
def stepEntry (cols : Columns) (row : List String) (old : Option TldEntry) : TldEntry :=
  let years := (rowYears cols row).getD 0
  let op := rowOp cols row
  let nonMember := rowNonMember cols row
  let member := rowMember cols row
  let e0 := old.getD emptyTldEntry
  let e1 := if nonMember.isSome ∨ member.isSome then
      { e0 with maxYears := max e0.maxYears years } else e0
  if years = 1 then
    let ea := match nonMember with
      | some v => { e1 with regular := upsert e1.regular op v }
      | none => e1
    match member with
    | some v => { ea with member := upsert ea.member op v }
    | none => ea
  else e1

lemma opStep_lookup_self (cols : Columns) (st : List (String × TldEntry))
    (row : List String) (h : rowAcceptedB cols row = true) :
    (opStep cols st row).lookup (rowTld cols row)
      = some (stepEntry cols row (st.lookup (rowTld cols row))) := by
  simp only [rowAcceptedB, Bool.and_eq_true, Bool.not_eq_eq_eq_not, Bool.not_true,
    beq_eq_false_iff_ne, ne_eq, Option.isSome_iff_exists] at h
  obtain ⟨⟨⟨hrow, y, hy⟩, htld⟩, hop⟩ := h
  have hrow' : ¬ row = [] := by
    intro hh
    rw [hh] at hrow
    simp at hrow
  simp only [opStep, stepEntry, if_neg hrow', hy, Option.getD_some]
  rw [if_neg (by tauto)]
  by_cases hst : (st.lookup (rowTld cols row)).isSome = true
  · rw [if_pos hst]
    rw [lookup_upsert_self]
  · rw [if_neg hst]
    rw [lookup_upsert_self]
    rw [lookup_upsert_self]
    have : st.lookup (rowTld cols row) = none := by
      rcases hh : st.lookup (rowTld cols row) with _ | e
      · rfl
      · rw [hh] at hst
        simp at hst
    rw [this]
    rfl

lemma opStep_lookup_other (cols : Columns) (st : List (String × TldEntry))
    (row : List String) (t : String) (h : ¬ t = rowTld cols row) :
    (opStep cols st row).lookup t = st.lookup t := by
  simp only [opStep]
  by_cases hrow : row = []
  · rw [if_pos hrow]
  · rw [if_neg hrow]
    split
    · rfl
    · by_cases hg : rowTld cols row = "" ∨ rowOp cols row = ""
      · rw [if_pos hg]
      · rw [if_neg hg]
        by_cases hst : (st.lookup (rowTld cols row)).isSome = true
        · rw [if_pos hst, lookup_upsert_ne _ _ _ _ h]
        · rw [if_neg hst, lookup_upsert_ne _ _ _ _ h, lookup_upsert_ne _ _ _ _ h]

lemma opStep_not_accepted (cols : Columns) (st : List (String × TldEntry))
    (row : List String) (h : rowAcceptedB cols row = false) :
    opStep cols st row = st := by
  simp only [rowAcceptedB, Bool.and_eq_false_iff] at h
  simp only [opStep]
  by_cases hrow : row = []
  · rw [if_pos hrow]
  · rw [if_neg hrow]
    split
    · rfl
    next y hy =>
      have hg : rowTld cols row = "" ∨ rowOp cols row = "" := by
        rcases h with ((h1 | h2) | h3) | h4
        · exact absurd (by simpa using hrow) (by simpa using h1)
        · rw [hy] at h2
          simp at h2
        · left
          simpa using h3
        · right
          simpa using h4
      rw [if_pos hg]

lemma stepEntry_maxYears (cols : Columns) (row : List String) (old : Option TldEntry) :
    (stepEntry cols row old).maxYears =
      if (rowNonMember cols row).isSome || (rowMember cols row).isSome then
        max (old.getD emptyTldEntry).maxYears ((rowYears cols row).getD 0)
      else (old.getD emptyTldEntry).maxYears := by
  simp only [stepEntry]
  by_cases hp : ((rowNonMember cols row).isSome || (rowMember cols row).isSome) = true
  · have hp' : (rowNonMember cols row).isSome = true ∨ (rowMember cols row).isSome = true := by
      simpa using hp
    rw [if_pos hp, if_pos hp']
    by_cases h1 : (rowYears cols row).getD 0 = 1
    · rw [if_pos h1]
      rcases rowNonMember cols row with _ | v <;> rcases rowMember cols row with _ | w <;> rfl
    · rw [if_neg h1]
  · have hp' : ¬ ((rowNonMember cols row).isSome = true ∨ (rowMember cols row).isSome = true) := by
      simpa using hp
    have hn : rowNonMember cols row = none := by
      rcases hh : rowNonMember cols row with _ | v
      · rfl
      · rw [hh] at hp
        simp at hp
    have hm : rowMember cols row = none := by
      rcases hh : rowMember cols row with _ | v
      · rfl
      · rw [hh] at hp
        simp at hp
    rw [if_neg hp, if_neg hp']
    simp only [hn, hm]
    by_cases h1 : (rowYears cols row).getD 0 = 1
    · rw [if_pos h1]
    · rw [if_neg h1]

lemma stepEntry_regular (cols : Columns) (row : List String) (old : Option TldEntry) :
    (stepEntry cols row old).regular =
      if (rowYears cols row).getD 0 = 1 then
        match rowNonMember cols row with
        | some v => upsert (old.getD emptyTldEntry).regular (rowOp cols row) v
        | none => (old.getD emptyTldEntry).regular
      else (old.getD emptyTldEntry).regular := by
  simp only [stepEntry]
  by_cases h1 : (rowYears cols row).getD 0 = 1
  · rw [if_pos h1, if_pos h1]
    by_cases hp : ((rowNonMember cols row).isSome ∨ (rowMember cols row).isSome)
    · rw [if_pos hp]
      rcases rowNonMember cols row with _ | v <;> rcases rowMember cols row with _ | w <;> rfl
    · rw [if_neg hp]
      rcases rowNonMember cols row with _ | v <;> rcases rowMember cols row with _ | w <;> rfl
  · rw [if_neg h1, if_neg h1]
    by_cases hp : ((rowNonMember cols row).isSome ∨ (rowMember cols row).isSome)
    · rw [if_pos hp]
    · rw [if_neg hp]

lemma getD_lookup_maxYears (st : List (String × TldEntry)) (t : String) :
    ((st.lookup t).getD emptyTldEntry).maxYears = (maxYearsOf st t).getD 0 := by
  simp only [maxYearsOf]
  rcases st.lookup t with _ | e
  · rfl
  · rfl

lemma getD_lookup_regular (st : List (String × TldEntry)) (t : String) :
    ((st.lookup t).getD emptyTldEntry).regular = regularOf st t := rfl

lemma getD_lookup_member (st : List (String × TldEntry)) (t : String) :
    ((st.lookup t).getD emptyTldEntry).member = memberOf st t := rfl

lemma stepEntry_member (cols : Columns) (row : List String) (old : Option TldEntry) :
    (stepEntry cols row old).member =
      if (rowYears cols row).getD 0 = 1 then
        match rowMember cols row with
        | some v => upsert (old.getD emptyTldEntry).member (rowOp cols row) v
        | none => (old.getD emptyTldEntry).member
      else (old.getD emptyTldEntry).member := by
  simp only [stepEntry]
  by_cases h1 : (rowYears cols row).getD 0 = 1
  · rw [if_pos h1, if_pos h1]
    by_cases hp : ((rowNonMember cols row).isSome ∨ (rowMember cols row).isSome)
    · rw [if_pos hp]
      rcases rowNonMember cols row with _ | v <;> rcases rowMember cols row with _ | w <;> rfl
    · rw [if_neg hp]
      rcases rowNonMember cols row with _ | v <;> rcases rowMember cols row with _ | w <;> rfl
  · rw [if_neg h1, if_neg h1]
    by_cases hp : ((rowNonMember cols row).isSome ∨ (rowMember cols row).isSome)
    · rw [if_pos hp]
    · rw [if_neg hp]

/-! ### Accessor-level characterization of one step -/

lemma maxYearsOf_opStep (cols : Columns) (st : List (String × TldEntry))
    (row : List String) (t : String) :
    maxYearsOf (opStep cols st row) t =
      if rowAcceptedB cols row && (rowTld cols row == t) then
        some (if (rowNonMember cols row).isSome || (rowMember cols row).isSome then
            max ((maxYearsOf st t).getD 0) ((rowYears cols row).getD 0)
          else (maxYearsOf st t).getD 0)
      else maxYearsOf st t := by
  by_cases hacc : rowAcceptedB cols row = true
  · by_cases ht : rowTld cols row = t
    · subst ht
      rw [if_pos (by simp [hacc])]
      simp only [maxYearsOf, opStep_lookup_self cols st row hacc, Option.map_some']
      rw [stepEntry_maxYears]
      rw [getD_lookup_maxYears]
      rfl
    · rw [if_neg (fun hcond => ht (beq_iff_eq.mp ((Bool.and_eq_true _ _).mp hcond).2))]
      simp only [maxYearsOf, opStep_lookup_other cols st row t (fun hh => ht hh.symm)]
  · rw [if_neg (fun hcond => hacc ((Bool.and_eq_true _ _).mp hcond).1)]
    rw [opStep_not_accepted cols st row (by simpa using hacc)]

lemma acceptedFor_cons (cols : Columns) (r : List String) (rest : List (List String))
    (t : String) :
    acceptedFor cols (r :: rest) t =
      if rowAcceptedB cols r && (rowTld cols r == t) then r :: acceptedFor cols rest t
      else acceptedFor cols rest t := by
  simp [acceptedFor, List.filter_cons]

lemma pricedYearsFor_cons (cols : Columns) (r : List String) (rest : List (List String))
    (t : String) :
    pricedYearsFor cols (r :: rest) t =
      if rowPricedB cols r && (rowTld cols r == t) then
        (rowYears cols r).getD 0 :: pricedYearsFor cols rest t
      else pricedYearsFor cols rest t := by
  simp only [pricedYearsFor, List.filter_cons]
  by_cases h : (rowPricedB cols r && (rowTld cols r == t)) = true
  · rw [if_pos h, if_pos h]
    rfl
  · rw [if_neg h, if_neg h]

lemma priced_and_tld_eq (cols : Columns) (r : List String) (t : String) :
    (rowPricedB cols r && (rowTld cols r == t)) =
      ((rowAcceptedB cols r && (rowTld cols r == t)) &&
        ((rowNonMember cols r).isSome || (rowMember cols r).isSome)) := by
  simp only [rowPricedB]
  rcases rowAcceptedB cols r with _ | _ <;>
    rcases (rowTld cols r == t) with _ | _ <;>
    rcases ((rowNonMember cols r).isSome || (rowMember cols r).isSome) with _ | _ <;> rfl

lemma regularOf_opStep (cols : Columns) (st : List (String × TldEntry))
    (row : List String) (t : String) :
    regularOf (opStep cols st row) t =
      if rowAcceptedB cols row && (rowTld cols row == t) &&
          (rowYears cols row == some 1) then
        match rowNonMember cols row with
        | some v => upsert (regularOf st t) (rowOp cols row) v
        | none => regularOf st t
      else regularOf st t := by
  by_cases hacc : rowAcceptedB cols row = true
  · by_cases ht : rowTld cols row = t
    · subst ht
      by_cases hy : rowYears cols row = some 1
      · rw [if_pos (by simp [hacc, hy])]
        simp only [regularOf, opStep_lookup_self cols st row hacc, Option.getD_some]
        rw [stepEntry_regular]
        rw [if_pos (by simp [hy])]
      · rw [if_neg (by simp [hy])]
        simp only [regularOf, opStep_lookup_self cols st row hacc, Option.getD_some]
        rw [stepEntry_regular]
        have hy1 : ¬ (rowYears cols row).getD 0 = 1 := by
          have hs : (rowYears cols row).isSome = true := by
            have := hacc
            simp only [rowAcceptedB, Bool.and_eq_true] at this
            exact this.1.1.2
          rcases hh : rowYears cols row with _ | y
          · rw [hh] at hs
            cases hs
          · rw [hh] at hy
            simp only [Option.getD_some]
            intro h1
            exact hy (by rw [h1])
        rw [if_neg hy1]
    · rw [if_neg (by
        intro hcond
        simp only [Bool.and_eq_true, beq_iff_eq] at hcond
        exact ht hcond.1.2)]
      simp only [regularOf, opStep_lookup_other cols st row t (fun hh => ht hh.symm)]
  · rw [if_neg (by
      intro hcond
      simp only [Bool.and_eq_true] at hcond
      rw [hcond.1.1] at hacc
      exact hacc rfl)]
    rw [opStep_not_accepted cols st row (by simpa using hacc)]

lemma memberOf_opStep (cols : Columns) (st : List (String × TldEntry))
    (row : List String) (t : String) :
    memberOf (opStep cols st row) t =
      if rowAcceptedB cols row && (rowTld cols row == t) &&
          (rowYears cols row == some 1) then
        match rowMember cols row with
        | some v => upsert (memberOf st t) (rowOp cols row) v
        | none => memberOf st t
      else memberOf st t := by
  by_cases hacc : rowAcceptedB cols row = true
  · by_cases ht : rowTld cols row = t
    · subst ht
      by_cases hy : rowYears cols row = some 1
      · rw [if_pos (by simp [hacc, hy])]
        simp only [memberOf, opStep_lookup_self cols st row hacc, Option.getD_some]
        rw [stepEntry_member]
        rw [if_pos (by simp [hy])]
      · rw [if_neg (by simp [hy])]
        simp only [memberOf, opStep_lookup_self cols st row hacc, Option.getD_some]
        rw [stepEntry_member]
        have hy1 : ¬ (rowYears cols row).getD 0 = 1 := by
          have hs : (rowYears cols row).isSome = true := by
            have := hacc
            simp only [rowAcceptedB, Bool.and_eq_true] at this
            exact this.1.1.2
          rcases hh : rowYears cols row with _ | y
          · rw [hh] at hs
            cases hs
          · rw [hh] at hy
            simp only [Option.getD_some]
            intro h1
            exact hy (by rw [h1])
        rw [if_neg hy1]
    · rw [if_neg (by
        intro hcond
        simp only [Bool.and_eq_true, beq_iff_eq] at hcond
        exact ht hcond.1.2)]
      simp only [memberOf, opStep_lookup_other cols st row t (fun hh => ht hh.symm)]
  · rw [if_neg (by
      intro hcond
      simp only [Bool.and_eq_true] at hcond
      rw [hcond.1.1] at hacc
      exact hacc rfl)]
    rw [opStep_not_accepted cols st row (by simpa using hacc)]

/-! ### Fold characterization over all rows -/

lemma maxYearsOf_fold (cols : Columns) (rows : List (List String)) (t : String) :
    ∀ st : List (String × TldEntry),
      maxYearsOf (rows.foldl (opStep cols) st) t =
        match maxYearsOf st t with
        | some m => some ((pricedYearsFor cols rows t).foldl max m)
        | none =>
          if acceptedFor cols rows t = [] then none
          else some ((pricedYearsFor cols rows t).foldl max 0) := by
  induction rows with
  | nil =>
    intro st
    simp only [List.foldl_nil, acceptedFor, pricedYearsFor, List.filter_nil,
      List.map_nil, List.foldl_nil]
    rcases maxYearsOf st t with _ | m
    · simp
    · rfl
  | cons r rest ih =>
    intro st
    rw [List.foldl_cons, ih (opStep cols st r)]
    have hstep := maxYearsOf_opStep cols st r t
    have haccc := acceptedFor_cons cols r rest t
    have hpyc := pricedYearsFor_cons cols r rest t
    rw [priced_and_tld_eq] at hpyc
    by_cases hA : (rowAcceptedB cols r && (rowTld cols r == t)) = true
    · rw [if_pos hA] at hstep haccc
      by_cases hP : ((rowNonMember cols r).isSome || (rowMember cols r).isSome) = true
      · rw [if_pos hP] at hstep
        rw [if_pos (by rw [hA, hP]; rfl)] at hpyc
        rcases hmy : maxYearsOf st t with _ | m
        · rw [hmy] at hstep
          rw [hstep, haccc, hpyc]
          simp [List.foldl_cons]
        · rw [hmy] at hstep
          rw [hstep, haccc, hpyc]
          simp [List.foldl_cons]
      · rw [if_neg hP] at hstep
        rw [if_neg (by rw [hA]; simpa using hP)] at hpyc
        rcases hmy : maxYearsOf st t with _ | m
        · rw [hmy] at hstep
          rw [hstep, haccc, hpyc]
          simp
        · rw [hmy] at hstep
          rw [hstep, haccc, hpyc]
          simp
    · rw [if_neg hA] at hstep haccc
      rw [if_neg (by
          intro hcond
          exact hA ((Bool.and_eq_true _ _).mp hcond).1)] at hpyc
      rw [hstep, haccc, hpyc]

lemma regularOf_fold_year1 (cols : Columns) (rows : List (List String)) (t : String) :
    ∀ st1 st2 : List (String × TldEntry), regularOf st1 t = regularOf st2 t →
      regularOf (rows.foldl (opStep cols) st1) t =
        regularOf ((rows.filter (fun r => rowYears cols r == some 1)).foldl
          (opStep cols) st2) t := by
  induction rows with
  | nil =>
    intro st1 st2 h
    simpa using h
  | cons r rest ih =>
    intro st1 st2 h
    rw [List.foldl_cons, List.filter_cons]
    by_cases h1 : (rowYears cols r == some 1) = true
    · rw [if_pos h1, List.foldl_cons]
      apply ih
      rw [regularOf_opStep, regularOf_opStep]
      rcases hc : (rowAcceptedB cols r && (rowTld cols r == t) &&
          (rowYears cols r == some 1)) with _ | _
      · exact h
      · rcases rowNonMember cols r with _ | v
        · exact h
        · rw [h]
    · rw [if_neg h1]
      apply ih
      rw [regularOf_opStep]
      rw [if_neg (by
        intro hcond
        rw [(Bool.and_eq_true _ _).mp hcond |>.2] at h1
        exact h1 rfl)]
      exact h

lemma memberOf_fold_year1 (cols : Columns) (rows : List (List String)) (t : String) :
    ∀ st1 st2 : List (String × TldEntry), memberOf st1 t = memberOf st2 t →
      memberOf (rows.foldl (opStep cols) st1) t =
        memberOf ((rows.filter (fun r => rowYears cols r == some 1)).foldl
          (opStep cols) st2) t := by
  induction rows with
  | nil =>
    intro st1 st2 h
    simpa using h
  | cons r rest ih =>
    intro st1 st2 h
    rw [List.foldl_cons, List.filter_cons]
    by_cases h1 : (rowYears cols r == some 1) = true
    · rw [if_pos h1, List.foldl_cons]
      apply ih
      rw [memberOf_opStep, memberOf_opStep]
      rcases hc : (rowAcceptedB cols r && (rowTld cols r == t) &&
          (rowYears cols r == some 1)) with _ | _
      · exact h
      · rcases rowMember cols r with _ | v
        · exact h
        · rw [h]
    · rw [if_neg h1]
      apply ih
      rw [memberOf_opStep]
      rw [if_neg (by
        intro hcond
        rw [(Bool.and_eq_true _ _).mp hcond |>.2] at h1
        exact h1 rfl)]
      exact h

/-! ## Claim theorems for sheet row processing -/

/-- Concrete column binding and row for the C5 counterexample. -/
def c5cols : Columns := ⟨0, 1, 2, 3, 4⟩

def c5row : List String := ["x", "-3", "create", "5", ""]

/-- C5 counterexample: a single accepted row for TLD `x` with Years `-3`
and a parsed regular price; the claim says the recorded maxYears equals
the maximum Years among priced rows (here `-3`), but the code records `0`
(the `Math.max` accumulator starts at 0). -/
theorem C5_counterexample_negative_years :
    maxYearsOf (opProcessRows c5cols [c5row]) "x" = some 0 ∧
    pricedYearsFor c5cols [c5row] "x" = [-3] ∧
    maxYearsOf (opProcessRows c5cols [c5row]) "x" ≠ some (-3) := by
  refine ⟨by decide, by decide, by decide⟩

/-- C5 amended: for every CSV input and TLD, the recorded maxYears is the
maximum of 0 and the Years values of that TLD's accepted rows in which at
least one price parsed (including rows with Years ≠ 1), and it exists
exactly when some row for the TLD was accepted; a row with both prices
absent never folds its Years into the maximum (a fresh entry starts at 0);
and the regular/member operation maps are exactly those produced by the
rows with Years = 1 alone. -/
theorem C5_amended_maxYears_and_year1 :
    (∀ cols rows t,
      maxYearsOf (opProcessRows cols rows) t =
        if acceptedFor cols rows t = [] then none
        else some ((pricedYearsFor cols rows t).foldl max 0)) ∧
    (∀ cols rows t,
      regularOf (opProcessRows cols rows) t =
        regularOf (opProcessRows cols
          (rows.filter (fun r => rowYears cols r == some 1))) t) ∧
    (∀ cols rows t,
      memberOf (opProcessRows cols rows) t =
        memberOf (opProcessRows cols
          (rows.filter (fun r => rowYears cols r == some 1))) t) ∧
    (∀ cols st row t, rowNonMember cols row = none → rowMember cols row = none →
      maxYearsOf (opStep cols st row) t =
        if (rowAcceptedB cols row && (rowTld cols row == t)) &&
            (maxYearsOf st t).isNone then some 0
        else maxYearsOf st t) := by
  refine ⟨?_, ?_, ?_, ?_⟩
  · intro cols rows t
    rw [opProcessRows, maxYearsOf_fold cols rows t []]
    rfl
  · intro cols rows t
    exact regularOf_fold_year1 cols rows t [] [] rfl
  · intro cols rows t
    exact memberOf_fold_year1 cols rows t [] [] rfl
  · intro cols st row t hn hm
    rw [maxYearsOf_opStep]
    rw [show ((rowNonMember cols row).isSome || (rowMember cols row).isSome) = false by
      rw [hn, hm]; rfl]
    by_cases hA : (rowAcceptedB cols row && (rowTld cols row == t)) = true
    · rw [if_pos hA]
      simp only [Bool.false_eq_true, if_false]
      rcases hmy : maxYearsOf st t with _ | m
      · rw [if_pos (by rw [hA]; rfl)]
        rfl
      · rw [if_neg (by rw [hA]; simp)]
        simp
    · rw [if_neg hA]
      rw [if_neg (by
        intro hcond
        exact hA ((Bool.and_eq_true _ _).mp hcond).1)]

/-- C5 amended, witness: the absent-prices conjunct applied at a concrete
row whose price cells are both empty; no maxYears value is folded in and
the fresh entry records 0. -/
theorem C5_amended_witness :
    maxYearsOf (opStep c5cols [] ["y", "2", "create", "", ""]) "y" =
      if (rowAcceptedB c5cols ["y", "2", "create", "", ""] &&
          (rowTld c5cols ["y", "2", "create", "", ""] == "y")) &&
          (maxYearsOf ([] : List (String × TldEntry)) "y").isNone then some 0
      else maxYearsOf ([] : List (String × TldEntry)) "y" :=
  C5_amended_maxYears_and_year1.2.2.2 c5cols [] ["y", "2", "create", "", ""] "y"
    (by decide) (by decide)

/-! ## Unified list generation (src/src/generators/unified.js)

JS `<` on strings is UTF-16 code-unit lexicographic comparison, modelled
on the underlying character lists. -/

def charListLt : List Char → List Char → Bool
  | [], [] => false
  | [], _ :: _ => true
  | _ :: _, [] => false
  | a :: as, b :: bs =>
    if a < b then true
    else if b < a then false
    else charListLt as bs

/-- JS `a < b` on strings. -/
def jsLtS (a b : String) : Bool := charListLt a.data b.data

/-- JS `!(b < a)`, the induced ≤. -/
def jsLeS (a b : String) : Prop := ¬ jsLtS b a = true

lemma charListLt_nil_right (a : List Char) : charListLt a [] = false := by
  cases a with
  | nil => rfl
  | cons x xs => rfl

lemma charListLt_irrefl (a : List Char) : charListLt a a = false := by
  induction a with
  | nil => rfl
  | cons x xs ih =>
    simp only [charListLt, if_neg (lt_irrefl x)]
    exact ih

lemma charListLt_connex (a : List Char) :
    ∀ b, charListLt a b = true ∨ charListLt b a = true ∨ a = b := by
  induction a with
  | nil =>
    intro b
    cases b with
    | nil => right; right; rfl
    | cons y ys => left; rfl
  | cons x xs ih =>
    intro b
    cases b with
    | nil => right; left; rfl
    | cons y ys =>
      rcases lt_trichotomy x y with hxy | hxy | hxy
      · left
        simp [charListLt, hxy]
      · subst hxy
        rcases ih ys with h | h | h
        · left
          simp only [charListLt, if_neg (lt_irrefl x)]
          exact h
        · right; left
          simp only [charListLt, if_neg (lt_irrefl x)]
          exact h
        · right; right
          rw [h]
      · right; left
        simp [charListLt, hxy]

lemma charListLt_trans :
    ∀ a b c : List Char, charListLt a b = true → charListLt b c = true →
      charListLt a c = true := by
  intro a
  induction a with
  | nil =>
    intro b c hab hbc
    cases c with
    | nil => rw [charListLt_nil_right] at hbc; cases hbc
    | cons z zs => rfl
  | cons x xs ih =>
    intro b c hab hbc
    cases b with
    | nil => rw [charListLt_nil_right] at hab; cases hab
    | cons y ys =>
      cases c with
      | nil => rw [charListLt_nil_right] at hbc; cases hbc
      | cons z zs =>
        simp only [charListLt] at hab hbc ⊢
        by_cases hxy : x < y
        · by_cases hyz : y < z
          · rw [if_pos (lt_trans hxy hyz)]
          · rw [if_neg hyz] at hbc
            by_cases hzy : z < y
            · rw [if_pos hzy] at hbc
              cases hbc
            · have : y = z := le_antisymm (not_lt.mp hzy) (not_lt.mp hyz)
              subst this
              rw [if_pos hxy]
        · rw [if_neg hxy] at hab
          by_cases hyx : y < x
          · rw [if_pos hyx] at hab
            cases hab
          · have hxyeq : x = y := le_antisymm (not_lt.mp hyx) (not_lt.mp hxy)
            subst hxyeq
            rw [if_neg (lt_irrefl x)] at hab
            by_cases hyz : x < z
            · rw [if_pos hyz]
            · rw [if_neg hyz] at hbc ⊢
              by_cases hzy : z < x
              · rw [if_pos hzy] at hbc
                cases hbc
              · rw [if_neg hzy] at hbc ⊢
                exact ih ys zs hab hbc

lemma jsLeS_refl (a : String) : jsLeS a a := by
  simp only [jsLeS, jsLtS]
  rw [charListLt_irrefl]
  simp

lemma jsLeS_trans {a b c : String} (h1 : jsLeS a b) (h2 : jsLeS b c) : jsLeS a c := by
  simp only [jsLeS, jsLtS] at h1 h2 ⊢
  intro hca
  rcases charListLt_connex a.data b.data with h | h | h
  · exact h2 (charListLt_trans _ _ _ hca h)
  · exact h1 h
  · rw [h] at hca
    exact h2 hca

lemma jsLeS_of_not_lt {a b : String} (h : ¬ jsLtS a b = true) : jsLeS b a := h

lemma jsLeS_of_lt {a b : String} (h : jsLtS a b = true) : jsLeS a b := by
  simp only [jsLeS, jsLtS] at h ⊢
  intro hba
  rcases charListLt_connex a.data b.data with h1 | h1 | h1
  · have := charListLt_trans _ _ _ h hba
    rw [charListLt_irrefl] at this
    cases this
  · have := charListLt_trans _ _ _ hba h
    rw [charListLt_irrefl] at this
    cases this
  · rw [h1] at h
    rw [charListLt_irrefl] at h
    cases h

/-! ### Data model and generateUnifiedList -/

/-- One provider's generator result as consumed by the merge: `data` maps
tld → the entry's `regular-price` map (absent when the entry is null or
lacks the key); raw map values carry `Number(v)` as `Option ℚ`
(`none` = non-finite). -/
structure GenResult where
  data : Option (List (String × Option (List (String × Option ℚ))))

instance : DecidableEq GenResult := fun a b =>
  @decidable_of_iff _ _ (by cases a; cases b; simp)
    (@Option.instDecidableEq _ (fun _ _ => inferInstance) a.data b.data)

/-- Single-level `sortObjectKeys` (insertion sort by JS string compare). -/
def insertPair (x : String × ℚ) : List (String × ℚ) → List (String × ℚ)
  | [] => [x]
  | y :: r => if jsLtS y.1 x.1 then y :: insertPair x r else x :: y :: r

def sortPairs (m : List (String × ℚ)) : List (String × ℚ) := m.foldr insertPair []

/-- `normalizeRegularPriceMap`: keep entries whose `Number(v)` is finite,
with deterministic key order. -/
def normalizeRegularPriceMap (m : Option (List (String × Option ℚ))) :
    List (String × ℚ) :=
  sortPairs ((m.getD []).filterMap (fun p => p.2.map (fun q => (p.1, q))))

/-- `cheapestMetric` over a normalized regular map: the `create` price when
present, else the minimum among the values; empty map → +∞. -/
def cheapestMetric (m : List (String × ℚ)) : WithTop ℚ :=
  match m.lookup "create" with
  | some c => (c : WithTop ℚ)
  | none => m.foldl (fun acc p => min acc ((p.2 : ℚ) : WithTop ℚ)) ⊤

structure Candidate where
  provider : String
  tld : String
  regular : List (String × ℚ)
deriving DecidableEq

/-- Candidate collection loop of `generateUnifiedList` (default options:
every provider of the results map, in order). -/
def allCandidates (results : List (String × GenResult)) : List Candidate :=
  results.flatMap (fun pr =>
    match pr.2.data with
    | none => []
    | some d => d.filterMap (fun te =>
        let regular := normalizeRegularPriceMap te.2
        if regular = [] then none
        else some ⟨pr.1, te.1, regular⟩))

/-- The winner-selection loop body at lines 86-93. -/
def selBetter (best cand : Candidate) : Candidate :=
  if cheapestMetric cand.regular < cheapestMetric best.regular ∨
      (cheapestMetric cand.regular = cheapestMetric best.regular ∧
        jsLtS cand.provider best.provider = true) then cand else best

def selectWinner (c : Candidate) (cs : List Candidate) : Candidate :=
  cs.foldl selBetter c

/-- Final deterministic ordering (sort by tld, then provider). -/
def insertEntry (x : Candidate) : List Candidate → List Candidate
  | [] => [x]
  | y :: r =>
    if jsLtS y.tld x.tld = true ∨ (y.tld = x.tld ∧ jsLtS y.provider x.provider = true)
    then y :: insertEntry x r
    else x :: y :: r

def generateUnifiedList (results : List (String × GenResult)) : List Candidate :=
  let cands := allCandidates results
  let tlds := (cands.map (fun c => c.tld)).dedup
  let selected := tlds.filterMap (fun t =>
    match cands.filter (fun c => c.tld == t) with
    | [] => none
    | c :: rest => some (selectWinner c rest))
  selected.foldr insertEntry []

/-- The candidate order used by the claim: strictly lower metric, or equal
metric and weakly smaller provider id. -/
def lexLE (a b : Candidate) : Prop :=
  cheapestMetric a.regular < cheapestMetric b.regular ∨
    (cheapestMetric a.regular = cheapestMetric b.regular ∧ jsLeS a.provider b.provider)

lemma lexLE_refl (a : Candidate) : lexLE a a := Or.inr ⟨rfl, jsLeS_refl _⟩

lemma lexLE_trans {a b c : Candidate} (h1 : lexLE a b) (h2 : lexLE b c) : lexLE a c := by
  rcases h1 with h1 | ⟨h1e, h1p⟩
  · rcases h2 with h2 | ⟨h2e, _⟩
    · exact Or.inl (lt_trans h1 h2)
    · exact Or.inl (h2e ▸ h1)
  · rcases h2 with h2 | ⟨h2e, h2p⟩
    · exact Or.inl (h1e ▸ h2)
    · exact Or.inr ⟨h1e.trans h2e, jsLeS_trans h1p h2p⟩

lemma selBetter_cases (b c : Candidate) : selBetter b c = b ∨ selBetter b c = c := by
  unfold selBetter
  split
  · right; rfl
  · left; rfl

lemma selBetter_le_left (b c : Candidate) : lexLE (selBetter b c) b := by
  unfold selBetter
  split
  next hcond =>
    rcases hcond with h | ⟨he, hp⟩
    · exact Or.inl h
    · exact Or.inr ⟨he, jsLeS_of_lt hp⟩
  next => exact lexLE_refl b

lemma selBetter_le_right (b c : Candidate) : lexLE (selBetter b c) c := by
  unfold selBetter
  split
  next => exact lexLE_refl c
  next hcond =>
    push_neg at hcond
    rcases lt_trichotomy (cheapestMetric b.regular) (cheapestMetric c.regular) with h | h | h
    · exact Or.inl h
    · refine Or.inr ⟨h, ?_⟩
      have hnp := hcond.2 h.symm
      exact jsLeS_of_not_lt (by simpa using hnp)
    · exact absurd h (not_lt.mpr hcond.1)

lemma selectWinner_spec (cs : List Candidate) : ∀ c : Candidate,
    (selectWinner c cs = c ∨ selectWinner c cs ∈ cs) ∧
    lexLE (selectWinner c cs) c ∧ ∀ x ∈ cs, lexLE (selectWinner c cs) x := by
  induction cs with
  | nil =>
    intro c
    exact ⟨Or.inl rfl, lexLE_refl c, by simp⟩
  | cons d rest ih =>
    intro c
    have hrec := ih (selBetter c d)
    have hw : selectWinner c (d :: rest) = selectWinner (selBetter c d) rest := rfl
    constructor
    · rcases hrec.1 with h1 | h1
      · rcases selBetter_cases c d with h2 | h2
        · left
          rw [hw, h1, h2]
        · right
          rw [hw, h1, h2]
          exact List.mem_cons_self d rest
      · right
        rw [hw]
        exact List.mem_cons_of_mem d h1
    · have hlc : lexLE (selectWinner (selBetter c d) rest) c :=
        lexLE_trans hrec.2.1 (selBetter_le_left c d)
      have hld : lexLE (selectWinner (selBetter c d) rest) d :=
        lexLE_trans hrec.2.1 (selBetter_le_right c d)
      refine ⟨hw ▸ hlc, ?_⟩
      intro x hx
      rcases List.mem_cons.mp hx with hx | hx
      · rw [hw, hx]
        exact hld
      · rw [hw]
        exact hrec.2.2 x hx

lemma mem_insertEntry {x y : Candidate} : ∀ {l : List Candidate},
    y ∈ insertEntry x l ↔ y = x ∨ y ∈ l := by
  intro l
  induction l with
  | nil => simp [insertEntry]
  | cons z r ih =>
    unfold insertEntry
    split
    · rw [List.mem_cons, ih]
      constructor
      · rintro (h | h | h)
        · exact Or.inr (List.mem_cons.mpr (Or.inl h))
        · exact Or.inl h
        · exact Or.inr (List.mem_cons.mpr (Or.inr h))
      · rintro (h | h)
        · right; left; exact h
        · rcases List.mem_cons.mp h with h | h
          · left; exact h
          · right; right; exact h
    · simp only [List.mem_cons]

lemma mem_sortCandidates {y : Candidate} : ∀ {l : List Candidate},
    y ∈ l.foldr insertEntry [] ↔ y ∈ l := by
  intro l
  induction l with
  | nil => simp
  | cons x r ih =>
    simp only [List.foldr_cons, mem_insertEntry, ih, List.mem_cons]

lemma allCandidates_regular_ne (results : List (String × GenResult)) :
    ∀ e ∈ allCandidates results, ¬ e.regular = [] := by
  intro e he
  simp only [allCandidates, List.mem_flatMap] at he
  obtain ⟨pr, _, hin⟩ := he
  rcases hd : pr.2.data with _ | d
  · rw [hd] at hin
    cases hin
  · rw [hd] at hin
    simp only [List.mem_filterMap] at hin
    obtain ⟨te, _, hsome⟩ := hin
    by_cases hreg : normalizeRegularPriceMap te.2 = []
    · rw [if_pos hreg] at hsome
      cases hsome
    · rw [if_neg hreg] at hsome
      injection hsome with hsome
      rw [← hsome]
      exact hreg

/-! ## Claim theorems for the unified list -/

/-- C1: every entry of generateUnifiedList is a candidate for its TLD whose
metric (create price if present, else the minimum among the operations of
its normalized regular map; empty map → infinite) is weakly smallest among
all of that TLD's candidates: strictly smaller than any other metric, or
equal with a lexicographically no-larger provider id; a provider whose
regular map normalizes to empty contributes no candidate at all; and every
TLD that has a candidate receives exactly such a winning entry. -/
theorem C1_unified_cheapest_winner :
    (∀ results : List (String × GenResult), ∀ e ∈ generateUnifiedList results,
      e ∈ allCandidates results ∧ ¬ e.regular = [] ∧
      ∀ c ∈ allCandidates results, c.tld = e.tld →
        cheapestMetric e.regular < cheapestMetric c.regular ∨
        (cheapestMetric e.regular = cheapestMetric c.regular ∧
          jsLeS e.provider c.provider)) ∧
    (∀ results : List (String × GenResult), ∀ t,
      (∃ c ∈ allCandidates results, c.tld = t) →
      ∃ e ∈ generateUnifiedList results, e.tld = t) ∧
    cheapestMetric [] = ⊤ := by
  have hkey : ∀ (results : List (String × GenResult)) (e : Candidate),
      e ∈ generateUnifiedList results →
      ∃ t, e ∈ (allCandidates results).filter (fun c => c.tld == t) ∧
        ∀ x ∈ (allCandidates results).filter (fun c => c.tld == t), lexLE e x := by
    intro results e he
    simp only [generateUnifiedList] at he
    rw [mem_sortCandidates] at he
    simp only [List.mem_filterMap] at he
    obtain ⟨t, _, hsome⟩ := he
    rcases hfil : (allCandidates results).filter (fun c => c.tld == t) with _ | ⟨c, rest⟩
    · rw [hfil] at hsome
      cases hsome
    · rw [hfil] at hsome
      injection hsome with hsome
      have hspec := selectWinner_spec rest c
      refine ⟨t, ?_, ?_⟩
      · rw [hfil, ← hsome]
        rcases hspec.1 with h | h
        · rw [h]
          exact List.mem_cons_self c rest
        · exact List.mem_cons_of_mem c h
      · intro x hx
        rw [hfil] at hx
        rw [← hsome]
        rcases List.mem_cons.mp hx with hx | hx
        · rw [hx]
          exact hspec.2.1
        · exact hspec.2.2 x hx
  refine ⟨?_, ?_, rfl⟩
  · intro results e he
    obtain ⟨t, hmem, hall⟩ := hkey results e he
    have hec := List.mem_filter.mp hmem
    have hetld : e.tld = t := by simpa using hec.2
    refine ⟨hec.1, allCandidates_regular_ne results e hec.1, ?_⟩
    intro c hc hctld
    have hcf : c ∈ (allCandidates results).filter (fun c => c.tld == t) :=
      List.mem_filter.mpr ⟨hc, by simp [hctld, hetld]⟩
    exact hall c hcf
  · intro results t ⟨c0, hc0, htld⟩
    have htmem : t ∈ ((allCandidates results).map (fun c => c.tld)).dedup := by
      rw [List.mem_dedup]
      exact List.mem_map.mpr ⟨c0, hc0, htld⟩
    have hc0f : c0 ∈ (allCandidates results).filter (fun c => c.tld == t) :=
      List.mem_filter.mpr ⟨hc0, by simp [htld]⟩
    rcases hfil : (allCandidates results).filter (fun c => c.tld == t) with _ | ⟨c, rest⟩
    · rw [hfil] at hc0f
      cases hc0f
    · have hspec := selectWinner_spec rest c
      refine ⟨selectWinner c rest, ?_, ?_⟩
      · simp only [generateUnifiedList]
        rw [mem_sortCandidates]
        simp only [List.mem_filterMap]
        refine ⟨t, htmem, ?_⟩
        rw [hfil]
      · have hwin : selectWinner c rest ∈
            (allCandidates results).filter (fun c => c.tld == t) := by
          rw [hfil]
          rcases hspec.1 with h | h
          · rw [h]
            exact List.mem_cons_self c rest
          · exact List.mem_cons_of_mem c h
        have := (List.mem_filter.mp hwin).2
        simpa using this

/-- C1 witness: two providers tie on create = 5 for `com`; the entry from
the lexicographically smaller provider id (alpha) is the selected winner,
and it is metric-minimal among the candidates. -/
theorem C1_unified_cheapest_winner_witness :
    (⟨"alpha", "com", [("create", 5)]⟩ : Candidate) ∈ allCandidates
      [("bravo", ⟨some [("com", some [("create", some 5)])]⟩),
       ("alpha", ⟨some [("com", some [("create", some 5)])]⟩)] ∧
    ¬ (⟨"alpha", "com", [("create", 5)]⟩ : Candidate).regular = [] ∧
    ∀ c ∈ allCandidates
      [("bravo", ⟨some [("com", some [("create", some 5)])]⟩),
       ("alpha", ⟨some [("com", some [("create", some 5)])]⟩)],
      c.tld = (⟨"alpha", "com", [("create", 5)]⟩ : Candidate).tld →
        cheapestMetric (⟨"alpha", "com", [("create", 5)]⟩ : Candidate).regular
            < cheapestMetric c.regular ∨
        (cheapestMetric (⟨"alpha", "com", [("create", 5)]⟩ : Candidate).regular
            = cheapestMetric c.regular ∧
          jsLeS (⟨"alpha", "com", [("create", 5)]⟩ : Candidate).provider c.provider) :=
  C1_unified_cheapest_winner.1
    [("bravo", ⟨some [("com", some [("create", some 5)])]⟩),
     ("alpha", ⟨some [("com", some [("create", some 5)])]⟩)]
    ⟨"alpha", "com", [("create", 5)]⟩ (by decide)

/-! ## Namecheap pricing extraction (src/src/generators/namecheap.js
getPricingForAction:196-211)

One XML `<Price .../>` element is modelled by its parsed attributes:
presence of an attribute is the outer `Option`; for numeric attributes the
inner value is the result of `Number(text)` (`none` = NaN). The XML regex
traversal supplying (tld, operation key, attributes) triples is outside
the embedding; the model receives the flattened triples. -/

structure PriceAttrs where
  duration : Option (Option ℚ)
  durationRangeStart : Option (Option ℚ)
  durationType : Option String
  yourPrice : Option ℚ
  regularPrice : Option (Option ℚ)
  retailPrice : Option (Option ℚ)
  price : Option (Option ℚ)
  currency : Option String
  priceType : Option String
deriving DecidableEq

/-- `Number(priceAttrs.Duration ?? priceAttrs.DurationRangeStart ?? 0)`. -/
def durationNum (a : PriceAttrs) : Option ℚ :=
  (a.duration.or a.durationRangeStart).getD (some 0)

/-- `String(priceAttrs.DurationType || '').toUpperCase()`. -/
def durationTypeStr (a : PriceAttrs) : String :=
  upperS (a.durationType.getD "")

/-- Negation of `duration !== 1 || (durationType && durationType !== 'YEAR')`. -/
def keepEntry (a : PriceAttrs) : Bool :=
  (durationNum a == some 1) &&
    (durationTypeStr a == "" || durationTypeStr a == "YEAR")

/-- `Number(priceAttrs.RegularPrice ?? priceAttrs.RetailPrice ?? priceAttrs.Price)`. -/
def retailNum (a : PriceAttrs) : Option ℚ :=
  ((a.regularPrice.or a.retailPrice).or a.price).getD none

structure PricingState where
  sale : List (String × List (String × ℚ))
  regular : List (String × List (String × ℚ))
  currency : String
deriving DecidableEq

/-- The body of the `<Price/>` loop for one (tld, opKey, attrs) triple. -/
def priceStep (st : PricingState) (e : String × String × PriceAttrs) : PricingState :=
  let tld := e.1
  let opKey := e.2.1
  let a := e.2.2
  if keepEntry a then
    let currency := match a.currency with
      | some c => if c = "" then st.currency else c
      | none => st.currency
    let sale0 := if (st.sale.lookup tld).isSome then st.sale else upsert st.sale tld []
    let regular0 := if (st.regular.lookup tld).isSome then st.regular
      else upsert st.regular tld []
    let sale1 := match a.yourPrice with
      | some v => upsert sale0 tld (upsert ((sale0.lookup tld).getD []) opKey v)
      | none => sale0
    let regular1 := match retailNum a with
      | some v => upsert regular0 tld (upsert ((regular0.lookup tld).getD []) opKey v)
      | none => regular0
    ⟨sale1, regular1, currency⟩
  else st

def processPrices (st : PricingState) (entries : List (String × String × PriceAttrs)) :
    PricingState :=
  entries.foldl priceStep st

/-! The typed `NamecheapRegistrar.parsePricing` (part_002:268-281) walks
the same XML structure but guards each `<Price/>` differently:
`if (duration && duration !== 1) continue;` — no DurationType check, and a
falsy duration (0 from the `?? 0` default, or NaN) is kept — then
`amount = Number(Price ?? RegularPrice ?? RetailPrice ?? 0)`, skipping
non-finite or non-positive amounts, and writes to `sale` or `regular`
according to the `PriceType` attribute. -/

/-- Negation of `duration && duration !== 1`: kept when the coerced
duration is NaN, 0, or 1. -/
def keepEntryTyped (a : PriceAttrs) : Bool :=
  match durationNum a with
  | none => true
  | some q => q == 0 || q == 1

/-- `Number(priceAttrs.Price ?? priceAttrs.RegularPrice ?? priceAttrs.RetailPrice ?? 0)`. -/
def amountNum (a : PriceAttrs) : Option ℚ :=
  ((a.price.or a.regularPrice).or a.retailPrice).getD (some 0)

/-- `String(priceAttrs.PriceType || '').toLowerCase()`. -/
def priceTypeStr (a : PriceAttrs) : String :=
  lowerS (a.priceType.getD "")

/-- The body of the typed `<Price/>` loop for one (tld, opKey, attrs)
triple. -/
def priceStepTyped (st : PricingState) (e : String × String × PriceAttrs) :
    PricingState :=
  let tld := e.1
  let opKey := e.2.1
  let a := e.2.2
  if keepEntryTyped a then
    match amountNum a with
    | none => st
    | some amt =>
      if amt ≤ 0 then st
      else
        let currency := match a.currency with
          | some c => if c = "" then st.currency else c
          | none => st.currency
        if priceTypeStr a = "sale" then
          ⟨upsert st.sale tld (upsert ((st.sale.lookup tld).getD []) opKey amt),
            st.regular, currency⟩
        else
          ⟨st.sale,
            upsert st.regular tld (upsert ((st.regular.lookup tld).getD []) opKey amt),
            currency⟩
  else st

def processPricesTyped (st : PricingState)
    (entries : List (String × String × PriceAttrs)) : PricingState :=
  entries.foldl priceStepTyped st

/-- A `<Price Duration="2" .../>` entry with finite prices. -/
def duration2Attrs : PriceAttrs :=
  ⟨some (some 2), none, none, some 10, some (some 12), none, none, some "USD", none⟩

/-- A `<Price Duration="1" DurationType="YEAR" .../>` entry. -/
def duration1Attrs : PriceAttrs :=
  ⟨some (some 1), none, some "YEAR", some 10, some (some 12), none, none, some "USD", none⟩

/-- A `<Price Duration="0" Price="7" .../>` entry. -/
def zeroDurAttrs : PriceAttrs :=
  ⟨some (some 0), none, none, none, none, none, some (some 7), some "USD", none⟩

/-- A `<Price Duration="1" DurationType="MONTH" Price="7" .../>` entry. -/
def monthAttrs : PriceAttrs :=
  ⟨some (some 1), none, some "MONTH", none, none, none, some (some 7), some "USD", none⟩

/-- C6 counterexample: the typed parsePricing keeps a Duration="0" entry
(falsy duration passes `duration && duration !== 1`) and a Duration="1"
DurationType="MONTH" entry (no unit check), so both contribute prices to
the regular operation maps, while the JS generator's guard rejects
both. -/
theorem C6_counterexample_typed_guard :
    keepEntry zeroDurAttrs = false ∧ keepEntry monthAttrs = false ∧
    (processPricesTyped ⟨[], [], "USD"⟩
        [("com", "create", zeroDurAttrs), ("net", "renew", monthAttrs)]).regular
      = [("com", [("create", 7)]), ("net", [("renew", 7)])] := by
  decide

/-- C6 (amended): in the JS generator's getPricingForAction only price
entries whose duration equals 1 — and whose duration unit, when present,
is "year" — contribute to the per-TLD operation maps: its pricing fold
equals the fold over the kept entries alone and every kept entry has
duration exactly 1 and an empty-or-YEAR unit. The typed parsePricing's
fold likewise equals the fold over its own kept entries, but its guard
keeps exactly the entries whose coerced duration is NaN, 0 or 1, with no
duration-unit check. In both variants an entry with `Duration="2"` leaves
the state untouched. -/
theorem C6_amended_duration_filter :
    (∀ st entries, processPrices st entries =
      processPrices st (entries.filter (fun e => keepEntry e.2.2))) ∧
    (∀ a : PriceAttrs, keepEntry a = true →
      durationNum a = some 1 ∧
        (durationTypeStr a = "" ∨ durationTypeStr a = "YEAR")) ∧
    (∀ st entries, processPricesTyped st entries =
      processPricesTyped st (entries.filter (fun e => keepEntryTyped e.2.2))) ∧
    (∀ a : PriceAttrs, keepEntryTyped a = true ↔
      (durationNum a = none ∨ durationNum a = some 0 ∨ durationNum a = some 1)) ∧
    (∀ st tld op, priceStep st (tld, op, duration2Attrs) = st) ∧
    (∀ st tld op, priceStepTyped st (tld, op, duration2Attrs) = st) := by
  refine ⟨?_, ?_, ?_, ?_, ?_, ?_⟩
  · intro st entries
    induction entries generalizing st with
    | nil => rfl
    | cons e rest ih =>
      simp only [processPrices, List.foldl_cons, List.filter_cons]
      by_cases hk : keepEntry e.2.2 = true
      · rw [if_pos hk]
        simp only [List.foldl_cons]
        exact ih (priceStep st e)
      · rw [if_neg hk]
        have hstep : priceStep st e = st := by
          simp only [priceStep]
          rw [if_neg hk]
        rw [hstep]
        exact ih st
  · intro a h
    simp only [keepEntry, Bool.and_eq_true, Bool.or_eq_true, beq_iff_eq] at h
    exact ⟨h.1, h.2⟩
  · intro st entries
    induction entries generalizing st with
    | nil => rfl
    | cons e rest ih =>
      simp only [processPricesTyped, List.foldl_cons, List.filter_cons]
      by_cases hk : keepEntryTyped e.2.2 = true
      · rw [if_pos hk]
        simp only [List.foldl_cons]
        exact ih (priceStepTyped st e)
      · rw [if_neg hk]
        have hstep : priceStepTyped st e = st := by
          simp only [priceStepTyped]
          rw [if_neg hk]
        rw [hstep]
        exact ih st
  · intro a
    rcases hd : durationNum a with _ | q
    · simp [keepEntryTyped, hd]
    · simp only [keepEntryTyped, hd, Bool.or_eq_true, beq_iff_eq]
      constructor
      · rintro (h | h)
        · exact Or.inr (Or.inl (by rw [h]))
        · exact Or.inr (Or.inr (by rw [h]))
      · rintro (h | h | h)
        · exact absurd h (by simp)
        · injection h with h
          exact Or.inl h
        · injection h with h
          exact Or.inr h
  · intro st tld op
    simp only [priceStep]
    rw [if_neg (by decide)]
  · intro st tld op
    simp only [priceStepTyped]
    rw [if_neg (by decide)]

/-- C6 witness: a kept `Duration="1" DurationType="YEAR"` entry indeed has
duration 1 and unit YEAR. -/
theorem C6_amended_duration_filter_witness :
    durationNum duration1Attrs = some 1 ∧
      (durationTypeStr duration1Attrs = "" ∨ durationTypeStr duration1Attrs = "YEAR") :=
  C6_amended_duration_filter.2.1 duration1Attrs (by decide)

/-! ## Namecheap generate post-filter (src/src/generators/namecheap.js:238-252)

Parsed TLD metadata, restricted to the fields the post-filter reads
(the other capability flags do not influence it). -/

structure TldMeta where
  isApiRegisterable : Bool
  maxRegisterYears : ℚ
  maxRenewYears : ℚ
  maxTransferYears : ℚ
deriving DecidableEq

structure NcOutEntry where
  maxYears : ℚ
  regularPrice : List (String × ℚ)
  salePrice : List (String × ℚ)
deriving DecidableEq

/-- The output-building loop of `generate`: iterate the set of TLDs
appearing in the combined sale/regular maps, skip a TLD whose metadata has
`IsApiRegisterable` false (`hasOwnProperty` check: the parsed metadata
always carries the flag, `attrs[tld] || {}` never does when absent), skip
a TLD with neither price, and emit maxYears plus the two maps. -/
def namecheapData (sale regular : List (String × List (String × ℚ)))
    (attrs : List (String × TldMeta)) : List (String × NcOutEntry) :=
  let allTlds := (sale.map Prod.fst ++ regular.map Prod.fst).dedup
  allTlds.filterMap (fun tld =>
    let info := attrs.lookup tld
    let excluded := match info with
      | some m => !m.isApiRegisterable
      | none => false
    if excluded then none
    else
      let saleMap := (sale.lookup tld).getD []
      let regularMap := (regular.lookup tld).getD []
      if saleMap = [] ∧ regularMap = [] then none
      else some (tld,
        ⟨max (max ((info.map TldMeta.maxRegisterYears).getD 0)
              ((info.map TldMeta.maxRenewYears).getD 0))
            ((info.map TldMeta.maxTransferYears).getD 0),
          regularMap, saleMap⟩))

/-! The typed `NamecheapRegistrar.map` (part_002:159-198) builds items
from the sorted union of metadata, regular and sale keys; it skips only
TLDs with no band (`if (!bands.length) continue`) and applies no
`IsApiRegisterable` filter at all (the flag merely lands in `extras`). -/

instance (a b : String) : Decidable (jsLeS a b) :=
  inferInstanceAs (Decidable (¬ jsLtS b a = true))

def insertString (s : String) : List String → List String
  | [] => [s]
  | t :: rest => if jsLeS s t then s :: t :: rest else t :: insertString s rest

/-- `Array.from(knownTlds).sort()` (default UTF-16 string order). -/
def sortStrings (l : List String) : List String := l.foldr insertString []

/-- `meta?.MaxRegisterYears || meta?.MaxRenewYears || undefined` (JS `||`
falls through zero). -/
def typedMaxYears (m : Option TldMeta) : Option ℚ :=
  match m with
  | none => none
  | some m =>
    if m.maxRegisterYears ≠ 0 then some m.maxRegisterYears
    else if m.maxRenewYears ≠ 0 then some m.maxRenewYears
    else none

structure NcItem where
  tld : String
  maxYears : Option ℚ
  regularBand : Option (List (String × ℚ))
  saleBand : Option (List (String × ℚ))
deriving DecidableEq

/-- The item loop of the typed `map`: each band is present iff the
corresponding pricing table has the TLD. -/
def ncMap (tldMetadata : List (String × TldMeta))
    (regular sale : List (String × List (String × ℚ))) : List NcItem :=
  let knownTlds := (tldMetadata.map Prod.fst ++ regular.map Prod.fst
    ++ sale.map Prod.fst).dedup
  (sortStrings knownTlds).filterMap (fun tld =>
    if regular.lookup tld = none ∧ sale.lookup tld = none then none
    else some ⟨tld, typedMaxYears (tldMetadata.lookup tld),
      regular.lookup tld, sale.lookup tld⟩)

lemma mem_insertString {s t : String} {l : List String} :
    t ∈ insertString s l ↔ t = s ∨ t ∈ l := by
  induction l with
  | nil => simp [insertString]
  | cons u rest ih =>
    simp only [insertString]
    by_cases hle : jsLeS s u
    · rw [if_pos hle]
      simp only [List.mem_cons]
    · rw [if_neg hle]
      simp only [List.mem_cons, ih]
      tauto

lemma mem_sortStrings {t : String} {l : List String} :
    t ∈ sortStrings l ↔ t ∈ l := by
  induction l with
  | nil => simp [sortStrings]
  | cons u rest ih =>
    show t ∈ insertString u (sortStrings rest) ↔ _
    rw [mem_insertString, ih]
    simp [List.mem_cons]

lemma lookup_some_mem {α : Type} {l : List (String × α)} {k : String} {v : α}
    (h : l.lookup k = some v) : k ∈ l.map Prod.fst := by
  induction l with
  | nil => cases h
  | cons p rest ih =>
    obtain ⟨pk, pv⟩ := p
    simp only [List.lookup] at h
    split at h
    next heq =>
      simp only [List.map_cons, List.mem_cons]
      exact Or.inl (by simpa using heq)
    next heq =>
      exact List.mem_cons_of_mem _ (ih h)

/-- C7 counterexample: a TLD whose metadata explicitly marks it not
API-registerable but which has a regular price is still emitted by the
typed map (which has no post-filter), while the JS generator's post-filter
drops it. -/
theorem C7_counterexample_typed_no_postfilter :
    "com" ∈ (ncMap [("com", ⟨false, 2, 2, 2⟩)]
      [("com", [("create", 5)])] []).map NcItem.tld ∧
    ¬ "com" ∈ (namecheapData [] [("com", [("create", 5)])]
      [("com", ⟨false, 2, 2, 2⟩)]).map Prod.fst := by
  decide

/-- C7 (amended): in the JS generator's output loop (under the fixed
universe of TLDs that carry at least one sale or regular price) a TLD is
excluded exactly when its fetched metadata has `IsApiRegisterable =
false`, and a TLD absent from the metadata is never excluded by this
rule; the typed map instead emits a TLD exactly when either pricing table
contains it, independent of the metadata flag — a marked-non-registerable
TLD with prices stays in its output. -/
theorem C7_amended_registerable_postfilter :
    (∀ (sale regular : List (String × List (String × ℚ)))
        (attrs : List (String × TldMeta)) (tld : String),
      tld ∈ (sale.map Prod.fst ++ regular.map Prod.fst) →
      ¬ ((sale.lookup tld).getD [] = [] ∧ (regular.lookup tld).getD [] = []) →
        ((¬ tld ∈ (namecheapData sale regular attrs).map Prod.fst) ↔
          ∃ m, attrs.lookup tld = some m ∧ m.isApiRegisterable = false)) ∧
    (∀ (sale regular : List (String × List (String × ℚ)))
        (attrs : List (String × TldMeta)) (tld : String),
      tld ∈ (sale.map Prod.fst ++ regular.map Prod.fst) →
      ¬ ((sale.lookup tld).getD [] = [] ∧ (regular.lookup tld).getD [] = []) →
      attrs.lookup tld = none →
        tld ∈ (namecheapData sale regular attrs).map Prod.fst) ∧
    (∀ (tldMetadata : List (String × TldMeta))
        (regular sale : List (String × List (String × ℚ))) (tld : String),
      tld ∈ (ncMap tldMetadata regular sale).map NcItem.tld ↔
        ¬ (regular.lookup tld = none ∧ sale.lookup tld = none)) := by
  have hmem : ∀ sale regular attrs (tld : String),
      tld ∈ (sale.map Prod.fst ++ regular.map Prod.fst) →
      ¬ ((sale.lookup tld).getD [] = [] ∧ (regular.lookup tld).getD [] = []) →
        (tld ∈ (namecheapData sale regular attrs).map Prod.fst ↔
          ¬ ∃ m, attrs.lookup tld = some m ∧ m.isApiRegisterable = false) := by
    intro sale regular attrs tld hU hP
    simp only [namecheapData, List.mem_map, List.mem_filterMap]
    constructor
    · rintro ⟨⟨t2, e⟩, ⟨t0, ht0, hf⟩, hfst⟩
      rintro ⟨m, hm, hreg⟩
      by_cases hex : (match attrs.lookup t0 with
          | some m => !m.isApiRegisterable
          | none => false) = true
      · rw [if_pos hex] at hf
        cases hf
      · rw [if_neg hex] at hf
        by_cases hboth : (sale.lookup t0).getD [] = [] ∧ (regular.lookup t0).getD [] = []
        · rw [if_pos hboth] at hf
          cases hf
        · rw [if_neg hboth] at hf
          injection hf with hf
          have ht0eq : t0 = tld := by
            have hfe := congrArg Prod.fst hf
            simp only at hfe
            have h2 : t2 = tld := by simpa using hfst
            exact hfe.trans h2
          subst ht0eq
          rw [hm] at hex
          simp only [hreg] at hex
          exact hex rfl
    · intro hnex
      have hdedup : tld ∈ (sale.map Prod.fst ++ regular.map Prod.fst).dedup :=
        List.mem_dedup.mpr hU
      refine ⟨(tld, ?_), ⟨tld, hdedup, ?_⟩, rfl⟩
      · exact ⟨max (max (((attrs.lookup tld).map TldMeta.maxRegisterYears).getD 0)
            (((attrs.lookup tld).map TldMeta.maxRenewYears).getD 0))
          (((attrs.lookup tld).map TldMeta.maxTransferYears).getD 0),
          (regular.lookup tld).getD [], (sale.lookup tld).getD []⟩
      · have hex : (match attrs.lookup tld with
            | some m => !m.isApiRegisterable
            | none => false) = false := by
          rcases hl : attrs.lookup tld with _ | m
          · rfl
          · rcases hr : m.isApiRegisterable with _ | _
            · exact absurd ⟨m, hl, hr⟩ hnex
            · simp [hr]
        rw [if_neg (by rw [hex]; simp), if_neg hP]
  refine ⟨?_, ?_, ?_⟩
  · intro sale regular attrs tld hU hP
    rw [hmem sale regular attrs tld hU hP]
    exact not_not
  · intro sale regular attrs tld hU hP hnone
    exact (hmem sale regular attrs tld hU hP).mpr (by
      rintro ⟨m, hm, _⟩
      rw [hnone] at hm
      cases hm)
  · intro tldMetadata regular sale tld
    simp only [ncMap, List.mem_map, List.mem_filterMap]
    constructor
    · rintro ⟨item, ⟨t0, ht0, hf⟩, htld⟩
      by_cases hb : regular.lookup t0 = none ∧ sale.lookup t0 = none
      · rw [if_pos hb] at hf
        cases hf
      · rw [if_neg hb] at hf
        injection hf with hf
        have ht0eq : t0 = tld := by
          rw [← hf] at htld
          simpa using htld
        rw [ht0eq] at hb
        exact hb
    · intro hb
      have hmemU : tld ∈ (tldMetadata.map Prod.fst ++ regular.map Prod.fst
          ++ sale.map Prod.fst) := by
        rcases not_and_or.mp hb with h | h
        · rcases hr : regular.lookup tld with _ | v
          · exact absurd hr h
          · simp only [List.mem_append]
            exact Or.inl (Or.inr (lookup_some_mem hr))
        · rcases hs : sale.lookup tld with _ | v
          · exact absurd hs h
          · simp only [List.mem_append]
            exact Or.inr (lookup_some_mem hs)
      refine ⟨⟨tld, typedMaxYears (tldMetadata.lookup tld), regular.lookup tld,
          sale.lookup tld⟩, ⟨tld, ?_, ?_⟩, rfl⟩
      · exact mem_sortStrings.mpr (List.mem_dedup.mpr hmemU)
      · rw [if_neg hb]

/-- C7 witness: a TLD with prices but absent from metadata stays in the
JS generator's output. -/
theorem C7_amended_registerable_postfilter_witness :
    "com" ∈ (namecheapData [("com", [("create", 5)])] []
      [("net", ⟨false, 2, 2, 2⟩)]).map Prod.fst :=
  C7_amended_registerable_postfilter.2.1 [("com", [("create", 5)])] []
    [("net", ⟨false, 2, 2, 2⟩)] "com" (by decide) (by decide) (by decide)

/-! ## NIRA fixed-table + FX adapter (part_002 NiraRegistrar:641-668,
part_006 niraGenerator) -/

structure FxEntry where
  rate : Option ℚ
deriving DecidableEq

/-- The FX response as consumed: the `ngn` and `NGN` keys
(`fxData?.ngn || fxData?.NGN || fxData?.['ngn'] || fxData?.['NGN']`
repeats the same two accesses). -/
structure FxData where
  ngn : Option FxEntry
  uNGN : Option FxEntry
deriving DecidableEq

def NGN_PRICES : List (String × ℚ) :=
  [("ng", 15000), ("com.ng", 7000), ("org.ng", 7000), ("name.ng", 400)]

/-- `Math.round(n * 100) / 100` with `Math.round x = ⌊x + 0.5⌋`. -/
def round2 (q : ℚ) : ℚ := ((⌊q * 100 + 1 / 2⌋ : ℤ) : ℚ) / 100

/-- `Number((fxData?.ngn || fxData?.NGN)?.rate)`; `none` is NaN. -/
def niraRate (d : FxData) : Option ℚ := (d.ngn.or d.uNGN).bind FxEntry.rate

def errNira : String := "Could not determine NGN per USD from FX response."

def niraParseRate : Option ℚ → Except String ℚ
  | some r => if r ≤ 0 then .error errNira else .ok r
  | none => .error errNira

/-- `NiraRegistrar.parse`: throw unless the rate is finite and positive. -/
def niraParse (d : FxData) : Except String ℚ := niraParseRate (niraRate d)

structure NiraItem where
  tld : String
  create : ℚ
  renew : ℚ
deriving DecidableEq

/-- `NiraRegistrar.map`: one regular band per namespace with `create` and
`renew` both set to `round2(ngnPrice / ngnPerUsd)`. -/
def niraItems (rate : ℚ) : List NiraItem :=
  NGN_PRICES.map (fun p => ⟨p.1, round2 (p.2 / rate), round2 (p.2 / rate)⟩)

def findNiraItem (items : List NiraItem) (t : String) : Option NiraItem :=
  items.find? (fun i => i.tld == t)

lemma niraParseRate_ok {o : Option ℚ} {r : ℚ} (h : niraParseRate o = .ok r) :
    o = some r ∧ 0 < r := by
  rcases o with _ | q
  · exact absurd h (by simp [niraParseRate])
  · simp only [niraParseRate] at h
    by_cases hq : q ≤ 0
    · rw [if_pos hq] at h
      exact absurd h (by simp)
    · rw [if_neg hq] at h
      injection h with h
      subst h
      exact ⟨rfl, not_le.mp hq⟩

lemma niraParseRate_error {o : Option ℚ} :
    (∃ e, niraParseRate o = .error e) ↔
      (o = none ∨ ∃ q, o = some q ∧ q ≤ 0) := by
  rcases o with _ | q
  · exact ⟨fun _ => Or.inl rfl, fun _ => ⟨errNira, rfl⟩⟩
  · simp only [niraParseRate]
    by_cases hq : q ≤ 0
    · simp only [if_pos hq]
      exact ⟨fun _ => Or.inr ⟨q, rfl, hq⟩, fun _ => ⟨errNira, rfl⟩⟩
    · simp only [if_neg hq]
      constructor
      · rintro ⟨e, he⟩
        exact absurd he (by simp)
      · rintro (h | ⟨q2, hq2, hle⟩)
        · exact absurd h (by simp)
        · injection hq2 with hq2
          subst hq2
          exact absurd hle hq

/-- `niraGenerator.generate` (part_006): guard
`!ngnPerUsd || !Number.isFinite(ngnPerUsd)`. The rate input is the raw
`ngnEntry?.rate`: `none` covers an absent entry, an absent/undefined rate
field and any non-number value (all fail `Number.isFinite` without
coercion); a present JSON number is finite, so only falsiness (zero)
remains to check. -/
def niraGenerate (rate : Option ℚ) : Except String (List (String × ℚ)) :=
  match rate with
  | none => .error "Could not determine NGN per USD from FloatRates response."
  | some r =>
    if r = 0 then .error "Could not determine NGN per USD from FloatRates response."
    else .ok (NGN_PRICES.map (fun p => (p.1, round2 (p.2 / r))))

/-- C8 counterexample: the standalone FloatRates generator's guard tests
truthiness (`!ngnPerUsd`), not positivity, so a finite negative rate of
-1500 NGN/USD is accepted rather than failing fatally, and the generator
emits a negative USD price (-10 for ng). -/
theorem C8_counterexample_negative_rate_accepted :
    (∃ l, niraGenerate (some (-1500)) = .ok l) ∧
    ((niraGenerate (some (-1500))).toOption.getD []).lookup "ng" = some (-10) := by
  have hval : round2 ((15000 : ℚ) / (-1500)) = -10 := by
    have h1 : (15000 : ℚ) / (-1500) = -10 := by norm_num
    rw [h1, round2]
    have h2 : ⌊(-10 : ℚ) * 100 + 1 / 2⌋ = -1000 := by
      rw [Int.floor_eq_iff]
      norm_num
    rw [h2]
    norm_num
  have hgen : niraGenerate (some (-1500)) =
      .ok (NGN_PRICES.map (fun p => (p.1, round2 (p.2 / (-1500))))) := by
    simp only [niraGenerate]
    rw [if_neg (by norm_num)]
  refine ⟨⟨_, hgen⟩, ?_⟩
  rw [hgen]
  simp only [Except.toOption, Option.getD, NGN_PRICES, List.map_cons, List.lookup]
  show some (round2 (15000 / (-1500))) = some (-10)
  rw [hval]

/-- C8 (amended): for every table price P and every usable rate r the
emitted USD price is `round(P / r * 100) / 100`, assigned identically to
create and renew; the typed registrar's parse succeeds exactly on a
finite positive rate and fails fatally otherwise; the standalone
FloatRates generator instead succeeds exactly on a finite nonzero rate
(zero, NaN and missing rates fail fatally, negative finite rates pass
through); and ng priced 15000 NGN at 1500 NGN/USD yields exactly 10 for
both operations. -/
theorem C8_amended_fx_conversion :
    (∀ d r, niraParse d = .ok r → niraRate d = some r ∧ 0 < r) ∧
    (∀ d, (∃ e, niraParse d = .error e) ↔
      (niraRate d = none ∨ ∃ q, niraRate d = some q ∧ q ≤ 0)) ∧
    (∀ r : ℚ, ∀ it ∈ niraItems r, it.create = it.renew ∧
      ∃ p, (it.tld, p) ∈ NGN_PRICES ∧ it.create = round2 (p / r)) ∧
    (∀ (r p : ℚ) (t : String), (t, p) ∈ NGN_PRICES →
      (⟨t, round2 (p / r), round2 (p / r)⟩ : NiraItem) ∈ niraItems r) ∧
    (∀ r : Option ℚ, (∃ l, niraGenerate r = .ok l) ↔ ∃ q, r = some q ∧ q ≠ 0) ∧
    (∀ q : ℚ, q ≠ 0 → niraGenerate (some q) =
      .ok (NGN_PRICES.map (fun p => (p.1, round2 (p.2 / q))))) ∧
    findNiraItem (niraItems 1500) "ng" = some ⟨"ng", 10, 10⟩ := by
  have hr10 : round2 ((15000 : ℚ) / 1500) = 10 := by
    have h1 : (15000 : ℚ) / 1500 = 10 := by norm_num
    rw [h1, round2]
    have h2 : ⌊(10 : ℚ) * 100 + 1 / 2⌋ = 1000 := by
      rw [Int.floor_eq_iff]
      norm_num
    rw [h2]
    norm_num
  refine ⟨?_, ?_, ?_, ?_, ?_, ?_, ?_⟩
  · intro d r h
    have h2 : niraParseRate (niraRate d) = .ok r := h
    exact niraParseRate_ok h2
  · intro d
    show (∃ e, niraParseRate (niraRate d) = .error e) ↔ _
    exact niraParseRate_error
  · intro r it hit
    simp only [niraItems, List.mem_map] at hit
    obtain ⟨p, hp, hpe⟩ := hit
    subst hpe
    exact ⟨rfl, p.2, by simpa using hp, rfl⟩
  · intro r p t hmem
    simp only [niraItems, List.mem_map]
    exact ⟨(t, p), hmem, rfl⟩
  · intro r
    rcases r with _ | q
    · constructor
      · rintro ⟨l, hl⟩
        cases hl
      · rintro ⟨q, hq, _⟩
        cases hq
    · by_cases hz : q = 0
      · subst hz
        simp only [niraGenerate, if_pos rfl]
        constructor
        · rintro ⟨l, hl⟩
          cases hl
        · rintro ⟨q2, hq2, hne⟩
          injection hq2 with hq2
          exact absurd hq2.symm hne
      · simp only [niraGenerate, if_neg hz]
        exact ⟨fun _ => ⟨q, rfl, hz⟩, fun _ => ⟨_, rfl⟩⟩
  · intro q hq
    simp only [niraGenerate, if_neg hq]
  · simp only [niraItems, NGN_PRICES, List.map_cons, findNiraItem, List.find?]
    rw [hr10]
    rfl

/-- C8 witness: the typed success characterization applied at a concrete
FX response with rate 1500. -/
theorem C8_amended_fx_conversion_witness :
    niraRate ⟨some ⟨some 1500⟩, none⟩ = some 1500 ∧ (0 : ℚ) < 1500 :=
  C8_amended_fx_conversion.1 ⟨some ⟨some 1500⟩, none⟩ 1500 (by decide)

/-! ## PersistentCache.read (src/src/gen-nira-prices.js:304-337)

The backing `readFile`/`JSON.parse` pair is modelled as the input: either
an I/O error with a code, or a parse outcome (`none` = the file content is
not valid JSON, so `JSON.parse` throws). -/

inductive JVal where
  | jnull : JVal
  | jbool : Bool → JVal
  | jnum : ℚ → JVal
  | jstr : String → JVal
  | jarr : List JVal → JVal
  | jobj : List (String × JVal) → JVal

/-- JS truthiness of a JSON value (a numeric NaN cannot be produced by
`JSON.parse`). -/
def truthy : JVal → Bool
  | .jnull => false
  | .jbool b => b
  | .jnum q => !(q == 0)
  | .jstr s => !(s == "")
  | .jarr _ => true
  | .jobj _ => true

/-- JS property access `v.cachedAt`: throws (TypeError) on null, looks up
own properties of an object, yields undefined on other primitives. -/
def getProp : JVal → String → Except Unit (Option JVal)
  | .jnull, _ => .error ()
  | .jobj fields, k => .ok (fields.lookup k)
  | _, _ => .ok none

inductive ReadError where
  | ioError : String → ReadError
  | jsonSyntax : ReadError
  | typeError : ReadError
deriving DecidableEq

inductive FileRead where
  | err : String → FileRead
  | ok : Option JVal → FileRead

/-- `PersistentCache.read`: ENOENT/ENOTDIR → null; other read errors and
JSON syntax errors propagate; a parsed entry with falsy `cachedAt` → null;
otherwise the parsed entry. -/
def cacheRead (r : FileRead) : Except ReadError (Option JVal) :=
  match r with
  | .err code =>
    if code = "ENOENT" ∨ code = "ENOTDIR" then .ok none
    else .error (.ioError code)
  | .ok none => .error .jsonSyntax
  | .ok (some v) =>
    match getProp v "cachedAt" with
    | .error _ => .error .typeError
    | .ok f => if truthy (f.getD .jnull) then .ok (some v) else .ok none

/-- C9: read returns absent exactly when the file is missing
(ENOENT/ENOTDIR) or the parsed entry lacks a truthy `cachedAt` field;
a file with invalid JSON propagates the parse error, and any other I/O
failure propagates as well. -/
theorem C9_cache_read_absent_only_missing :
    (∀ r, cacheRead r = .ok none ↔
      (r = .err "ENOENT" ∨ r = .err "ENOTDIR" ∨
        ∃ v f, r = .ok (some v) ∧ getProp v "cachedAt" = .ok f ∧
          truthy (f.getD .jnull) = false)) ∧
    cacheRead (.ok none) = .error .jsonSyntax ∧
    (∀ code, ¬ code = "ENOENT" → ¬ code = "ENOTDIR" →
      cacheRead (.err code) = .error (.ioError code)) := by
  refine ⟨?_, rfl, ?_⟩
  · intro r
    rcases r with code | content
    · simp only [cacheRead]
      by_cases hc : code = "ENOENT" ∨ code = "ENOTDIR"
      · rw [if_pos hc]
        constructor
        · intro _
          rcases hc with h | h
          · exact Or.inl (by rw [h])
          · exact Or.inr (Or.inl (by rw [h]))
        · intro _
          rfl
      · rw [if_neg hc]
        constructor
        · intro h
          cases h
        · rintro (h | h | ⟨v, f, h, _⟩)
          · injection h with h
            exact absurd (Or.inl h) hc
          · injection h with h
            exact absurd (Or.inr h) hc
          · cases h
    · rcases content with _ | v
      · simp only [cacheRead]
        constructor
        · intro h
          cases h
        · rintro (h | h | ⟨v, f, h, _⟩) <;> cases h
      · simp only [cacheRead]
        rcases hg : getProp v "cachedAt" with _ | f
        · constructor
          · intro h
            cases h
          · rintro (h | h | ⟨v2, f2, h2, hg2, _⟩)
            · cases h
            · cases h
            · injection h2 with h2
              injection h2 with h2
              subst h2
              rw [hg] at hg2
              cases hg2
        · show (if truthy (f.getD JVal.jnull) = true then
              (Except.ok (some v) : Except ReadError (Option JVal))
            else Except.ok none) = Except.ok none ↔ _
          by_cases ht : truthy (f.getD .jnull) = true
          · rw [if_pos ht]
            constructor
            · intro h
              cases h
            · rintro (h | h | ⟨v2, f2, h2, hg2, htr⟩)
              · cases h
              · cases h
              · injection h2 with h2
                injection h2 with h2
                subst h2
                rw [hg] at hg2
                injection hg2 with hg2
                subst hg2
                rw [ht] at htr
                cases htr
          · rw [if_neg ht]
            constructor
            · intro _
              exact Or.inr (Or.inr ⟨v, f, rfl, hg, by simpa using ht⟩)
            · intro _
              rfl
  · intro code h1 h2
    simp only [cacheRead]
    rw [if_neg (by
      rintro (h | h)
      · exact h1 h
      · exact h2 h)]

/-- C9 witness: a read failing with EACCES (neither ENOENT nor ENOTDIR)
propagates the I/O error instead of returning absent. -/
theorem C9_cache_read_witness :
    cacheRead (.err "EACCES") = .error (.ioError "EACCES") :=
  C9_cache_read_absent_only_missing.2.2 "EACCES" (by decide) (by decide)

/-! ## XRegistrar.getPricelist TTL policy (part_002:565-588)

JS `ttl` values are modelled with NaN and the infinities explicit;
timestamps are rationals (`Date.parse` of the stored ISO string). The
fetch → parse → map pipeline's result is the `mapped` input; `touch`
stamps it with the current time. -/

inductive JsTtl where
  | nan : JsTtl
  | posInf : JsTtl
  | negInf : JsTtl
  | fin : ℚ → JsTtl
deriving DecidableEq

structure PL where
  fetchedAt : ℚ
  content : String
deriving DecidableEq

structure CEntry where
  cachedAt : ℚ
  payload : PL
deriving DecidableEq

structure GPOutcome where
  returned : PL
  fetched : Bool
  written : Option CEntry
deriving DecidableEq

/-- The fall-through path: fetch, parse, map, touch, write
`{cachedAt: mapped.fetchedAt, payload: mapped}`, return mapped. -/
def fetchPath (now : ℚ) (mapped : PL) : GPOutcome :=
  let touched : PL := ⟨now, mapped.content⟩
  ⟨touched, true, some ⟨touched.fetchedAt, touched⟩⟩

def getPricelist (ttl : JsTtl) (cached : Option CEntry) (now : ℚ) (mapped : PL) :
    GPOutcome :=
  match ttl with
  | .posInf =>
    match cached with
    | some e => ⟨e.payload, false, none⟩
    | none => fetchPath now mapped
  | .fin q =>
    if 0 < q then
      match cached with
      | some e =>
        if now - e.cachedAt ≤ q then ⟨e.payload, false, none⟩
        else fetchPath now mapped
      | none => fetchPath now mapped
    else
      match cached with
      | some e => if q = 0 then fetchPath now mapped else ⟨e.payload, false, none⟩
      | none => fetchPath now mapped
  | .nan =>
    match cached with
    | some e => ⟨e.payload, false, none⟩
    | none => fetchPath now mapped
  | .negInf =>
    match cached with
    | some e => ⟨e.payload, false, none⟩
    | none => fetchPath now mapped

/-- C10: a negative or NaN ttl behaves exactly like Infinity (any existing
cache entry is returned without refetching); the pipeline runs exactly
when ttl = 0, no cache entry exists, or a finite positive ttl is exceeded
by the entry's age; and on every fetch the cache is overwritten with an
entry whose cachedAt equals the returned pricelist's fetchedAt, while a
cache hit writes nothing and returns the stored payload. -/
theorem C10_ttl_policy :
    (∀ cached now mapped,
      getPricelist .nan cached now mapped = getPricelist .posInf cached now mapped ∧
      getPricelist .negInf cached now mapped = getPricelist .posInf cached now mapped ∧
      ∀ q : ℚ, q < 0 →
        getPricelist (.fin q) cached now mapped
          = getPricelist .posInf cached now mapped) ∧
    (∀ ttl cached now mapped,
      (getPricelist ttl cached now mapped).fetched = true ↔
        (ttl = .fin 0 ∨ cached = none ∨
          ∃ (q : ℚ) (e : CEntry), ttl = .fin q ∧ 0 < q ∧ cached = some e ∧
            q < now - e.cachedAt)) ∧
    (∀ ttl cached now mapped,
      ((getPricelist ttl cached now mapped).fetched = true →
        (getPricelist ttl cached now mapped).written =
          some ⟨(getPricelist ttl cached now mapped).returned.fetchedAt,
            (getPricelist ttl cached now mapped).returned⟩) ∧
      ((getPricelist ttl cached now mapped).fetched = false →
        (getPricelist ttl cached now mapped).written = none ∧
        ∃ e, cached = some e ∧
          (getPricelist ttl cached now mapped).returned = e.payload)) := by
  have hsplit : ∀ ttl cached now mapped,
      getPricelist ttl cached now mapped = fetchPath now mapped ∨
      (∃ e, cached = some e ∧
        getPricelist ttl cached now mapped = ⟨e.payload, false, none⟩) := by
    intro ttl cached now mapped
    rcases ttl with _ | _ | _ | q <;> rcases cached with _ | e
    · left; rfl
    · right; exact ⟨e, rfl, rfl⟩
    · left; rfl
    · right; exact ⟨e, rfl, rfl⟩
    · left; rfl
    · right; exact ⟨e, rfl, rfl⟩
    · simp only [getPricelist]
      by_cases hq : 0 < q
      · rw [if_pos hq]
        left; rfl
      · rw [if_neg hq]
        left; rfl
    · simp only [getPricelist]
      by_cases hq : 0 < q
      · rw [if_pos hq]
        by_cases hage : now - e.cachedAt ≤ q
        · rw [if_pos hage]
          right; exact ⟨e, rfl, rfl⟩
        · rw [if_neg hage]
          left; rfl
      · rw [if_neg hq]
        by_cases h0 : q = 0
        · rw [if_pos h0]
          left; rfl
        · rw [if_neg h0]
          right; exact ⟨e, rfl, rfl⟩
  refine ⟨?_, ?_, ?_⟩
  · intro cached now mapped
    refine ⟨?_, ?_, ?_⟩
    · rcases cached with _ | e <;> rfl
    · rcases cached with _ | e <;> rfl
    · intro q hq
      rcases cached with _ | e
      · simp only [getPricelist]
        rw [if_neg (by linarith)]
      · simp only [getPricelist]
        rw [if_neg (by linarith), if_neg (by linarith)]
  · intro ttl cached now mapped
    rcases ttl with _ | _ | _ | q
    · rcases cached with _ | e
      · simp [getPricelist, fetchPath]
      · simp only [getPricelist]
        constructor
        · intro h
          cases h
        · rintro (h | h | ⟨q, e2, h, _⟩) <;> cases h
    · rcases cached with _ | e
      · simp [getPricelist, fetchPath]
      · simp only [getPricelist]
        constructor
        · intro h
          cases h
        · rintro (h | h | ⟨q, e2, h, _⟩) <;> cases h
    · rcases cached with _ | e
      · simp [getPricelist, fetchPath]
      · simp only [getPricelist]
        constructor
        · intro h
          cases h
        · rintro (h | h | ⟨q, e2, h, _⟩) <;> cases h
    · rcases cached with _ | e
      · simp [getPricelist, fetchPath]
      · simp only [getPricelist]
        by_cases h0 : 0 < q
        · rw [if_pos h0]
          by_cases hage : now - e.cachedAt ≤ q
          · rw [if_pos hage]
            constructor
            · intro h
              cases h
            · rintro (h | h | ⟨q2, e2, hq2, hpos, hce, hgt⟩)
              · injection h with h
                subst h
                exact absurd h0 (lt_irrefl 0)
              · cases h
              · injection hq2 with hq2
                subst hq2
                injection hce with hce
                subst hce
                exact absurd hgt (not_lt.mpr hage)
          · rw [if_neg hage]
            simp only [fetchPath]
            constructor
            · intro _
              exact Or.inr (Or.inr ⟨q, e, rfl, h0, rfl, not_le.mp hage⟩)
            · intro _
              trivial
        · rw [if_neg h0]
          by_cases hz : q = 0
          · rw [if_pos hz]
            simp only [fetchPath]
            constructor
            · intro _
              exact Or.inl (by rw [hz])
            · intro _
              trivial
          · rw [if_neg hz]
            constructor
            · intro h
              cases h
            · rintro (h | h | ⟨q2, e2, hq2, hpos, hce, hgt⟩)
              · injection h with h
                exact absurd h hz
              · cases h
              · injection hq2 with hq2
                subst hq2
                exact absurd hpos h0
  · intro ttl cached now mapped
    rcases hsplit ttl cached now mapped with h | ⟨e, hce, h⟩
    · rw [h]
      simp [fetchPath]
    · rw [h]
      constructor
      · intro hf
        cases hf
      · intro _
        exact ⟨rfl, e, hce, rfl⟩

/-- C10 witness: with ttl = -5 and a year-old cache entry, the entry is
returned exactly as with an infinite ttl (no refetch). -/
theorem C10_ttl_policy_witness :
    getPricelist (.fin (-5)) (some ⟨0, ⟨0, "old"⟩⟩) 1000 ⟨0, "fresh"⟩
      = getPricelist .posInf (some ⟨0, ⟨0, "old"⟩⟩) 1000 ⟨0, "fresh"⟩ :=
  (C10_ttl_policy.1 (some ⟨0, ⟨0, "old"⟩⟩) 1000 ⟨0, "fresh"⟩).2.2 (-5) (by norm_num)

end Spec2Proof
